import Mathlib

/-!
# Request-context pooling (`context.go`, package `lloyd`)

A shallow embedding of the pooled request context.  Go pointers are addresses
(`Ptr`) into explicit heaps held by `State`; a nil-able pointer is an
`Option Ptr`.  `sync.Pool` is a sequential free list: `Put` pushes on the
head, `Get` pops the head and yields nil on the empty list.
-/

namespace Lloyd

/-- An address in one of the heaps of `State`. -/
abbrev Ptr := Nat

/-- A closure of type `func()`; this file only stores closures, so a closure is
identified by a token. -/
abbrev Func := Nat

/-- A byte slice `[]byte`, by its content. -/
abbrev Bytes := String

/-- Modelled from the spec: `B2S` (defined outside `context.go`), the zero-copy
view of a byte buffer as a string. The string is taken by the content the
bytes have at the call and keeps it; that the real string shares its memory
with the buffer, and reads differently once the buffer is written, is outside
this model. -/
def B2S (b : Bytes) : String := b

/-- The record `net/url.Userinfo`. -/
structure Userinfo where
  username : String
  password : String
  passwordSet : Bool
deriving DecidableEq

/-- The record `net/url.URL`, every field of it. -/
structure URL where
  Scheme : String
  Opaque : String
  User : Option Userinfo
  Host : String
  Path : String
  RawPath : String
  OmitHost : Bool
  ForceQuery : Bool
  RawQuery : String
  Fragment : String
  RawFragment : String
deriving DecidableEq

/-- What the accessors `Scheme()`, `Path()`, `Host()`, `QueryString()` of a
`fasthttp.URI` return. -/
structure URI where
  scheme : Bytes
  path : Bytes
  host : Bytes
  queryString : Bytes
deriving DecidableEq

/-- The parts of a `fasthttp.RequestCtx` that `context.go` reads: the request
URI and the key/value pairs `Response.Header.VisitAll` visits, in visiting
order. -/
structure RequestCtx where
  uri : URI
  respHeader : List (Bytes × Bytes)
deriving DecidableEq

/-- The map `net/http.Header` (`map[string][]string`) as an association list
with one entry per key. -/
abbrev Header := List (String × List String)

/-- Modelled from the spec: the adapter type `responseWriter` (declared outside
`context.go`), with the two fields `ResponseWriter` assigns: the owning context
and the cached header map (`none` is the nil map). -/
structure responseWriter where
  ctx : Option Ptr
  hdr : Option Header
deriving DecidableEq

/-- The struct `Ctx`; `RequestCtx` is the embedded `*fasthttp.RequestCtx`. -/
structure Ctx where
  RequestCtx : Option Ptr
  next : Bool
  pathName : String
  stdUrl : Option Ptr
  rw : Option Ptr
  deferFuncs : List Func
  error : Bool
deriving DecidableEq

/-- The memory the package works on: the transport's buffers, the three heaps,
the three pools, and two observation logs: `ran` lists the closures invoked so
far and `urlAcquires` counts the calls of `AcquireURL`. -/
structure State where
  bufs : List RequestCtx
  ctxs : List Ctx
  urls : List URL
  rws : List responseWriter
  ctxPool : List Ptr
  urlPool : List Ptr
  rwPool : List Ptr
  ran : List Func
  urlAcquires : Nat
deriving DecidableEq

/-- The Go zero value of `url.URL`. -/
def URL.zero : URL :=
  { Scheme := "", Opaque := "", User := none, Host := "", Path := "", RawPath := "",
    OmitHost := false, ForceQuery := false, RawQuery := "", Fragment := "",
    RawFragment := "" }

/-- The package variable `zeroUrl = &stdUrl.URL{}`, by the value it points at. -/
def zeroUrl : URL := URL.zero

/-- The Go zero value of `Ctx`, what `new(Ctx)` points at. -/
def Ctx.zero : Ctx :=
  { RequestCtx := none, next := false, pathName := "", stdUrl := none, rw := none,
    deferFuncs := [], error := false }

/-- The Go zero value of `responseWriter`. -/
def responseWriter.zero : responseWriter := { ctx := none, hdr := none }

/-- The memory before any call, over the transport's buffers `bufs`. -/
def State.init (bufs : List RequestCtx) : State :=
  { bufs := bufs, ctxs := [], urls := [], rws := [], ctxPool := [], urlPool := [],
    rwPool := [], ran := [], urlAcquires := 0 }

/-- The function `AcquireCtx(ctx)`: the new state and the returned `*Ctx`. -/
def AcquireCtx (s : State) (ctx : Option Ptr) : State × Ptr :=
  match s.ctxPool with
  | [] =>
    ({ s with ctxs := s.ctxs ++ [{ Ctx.zero with RequestCtx := ctx }] }, s.ctxs.length)
  | v :: rest =>
    let lCtx := s.ctxs.getD v Ctx.zero
    ({ s with ctxPool := rest, ctxs := s.ctxs.set v { lCtx with RequestCtx := ctx } }, v)

/-- The function `AcquireURL(uri)`: the new state and the returned `*url.URL`. -/
def AcquireURL (s : State) (uri : URI) : State × Ptr :=
  match s.urlPool with
  | [] =>
    ({ s with
        urls := s.urls ++ [{ URL.zero with
          Scheme := B2S uri.scheme, Path := B2S uri.path, Host := B2S uri.host,
          RawQuery := B2S uri.queryString }],
        urlAcquires := s.urlAcquires + 1 },
     s.urls.length)
  | v :: rest =>
    let url := s.urls.getD v URL.zero
    ({ s with
        urlPool := rest,
        urls := s.urls.set v { url with
          Scheme := B2S uri.scheme, Path := B2S uri.path, Host := B2S uri.host,
          RawQuery := B2S uri.queryString },
        urlAcquires := s.urlAcquires + 1 },
     v)

/-- The function `ReleaseURL(url)`: nothing for nil, else `*url = *zeroUrl` and
`urlPool.Put(url)`. -/
def ReleaseURL (s : State) (url : Option Ptr) : State :=
  match url with
  | none => s
  | some u => { s with urls := s.urls.set u zeroUrl, urlPool := u :: s.urlPool }

/-- Modelled from the spec: `acqRespWriter` (defined outside `context.go`), the
acquire side of the response-writer adapter pool: a reused instance if one is
pooled, else a new one. -/
def acqRespWriter (s : State) : State × Ptr :=
  match s.rwPool with
  | [] => ({ s with rws := s.rws ++ [responseWriter.zero] }, s.rws.length)
  | v :: rest => ({ s with rwPool := rest }, v)

/-- Modelled from the spec: `relRespWriter` (defined outside `context.go`), the
release side of the adapter pool: nothing for an absent adapter, else the
adapter is reset and returned to its pool. -/
def relRespWriter (s : State) ( rw : Option Ptr) : State :=
  match rw with
  | none => s
  | some r => { s with rws := s.rws.set r responseWriter.zero, rwPool := r :: s.rwPool }

/-- The function `ReleaseCtx(ctx)`: `ReleaseURL(ctx.stdUrl)`, `relRespWriter(ctx.rw)`,
`ctx.next = false`, `ctxPool.Put(ctx)`. -/
def ReleaseCtx (s : State) (ctx : Ptr) : State :=
  let c := s.ctxs.getD ctx Ctx.zero
  let s1 := ReleaseURL s c.stdUrl
  let s2 := relRespWriter s1 c.rw
  { s2 with
      ctxs := s2.ctxs.set ctx { (s2.ctxs.getD ctx Ctx.zero) with next := false },
      ctxPool := ctx :: s2.ctxPool }

/-- The method `(*Ctx).Next()`. -/
def Ctx.Next (s : State) (ctx : Ptr) : State :=
  { s with ctxs := s.ctxs.set ctx { (s.ctxs.getD ctx Ctx.zero) with next := true } }

/-- The method `(*Ctx).PathName()`. -/
def Ctx.PathName (s : State) (ctx : Ptr) : String :=
  (s.ctxs.getD ctx Ctx.zero).pathName

/-- The method `(*Ctx).URL()`: `none` when the call dereferences a nil or dangling
pointer, else the new state and the returned `*url.URL`. -/
def Ctx.URL (s : State) (ctx : Ptr) : Option (State × Ptr) :=
  match s.ctxs[ctx]? with
  | none => none
  | some c =>
    match c.stdUrl with
    | some u => some (s, u)
    | none =>
      match c.RequestCtx with
      | none => none
      | some b =>
        match s.bufs[b]? with
        | none => none
        | some rc =>
          let r := AcquireURL s rc.uri
          some ({ r.1 with ctxs := r.1.ctxs.set ctx { c with stdUrl := some r.2 } }, r.2)

/-- The method `(*Ctx).Defer(deferFunc)`. -/
def Ctx.Defer (s : State) (ctx : Ptr) (deferFunc : Func) : State :=
  let c := s.ctxs.getD ctx Ctx.zero
  { s with ctxs := s.ctxs.set ctx { c with deferFuncs := c.deferFuncs ++ [deferFunc] } }

/-- The method `http.Header.Set(key, value)`: the entry of the canonical form of `key`
becomes the single value `value`.  The canonical form
(`textproto.CanonicalMIMEHeaderKey`) is the parameter `canon`. -/
def Header.Set (canon : String → String) (h : Header) (key value : String) : Header :=
  (canon key, [value]) :: h.filter (fun p => p.1 ≠ canon key)

/-- The map entry `h[key]`, `none` when the key is absent. -/
def Header.entry (h : Header) (key : String) : Option (List String) :=
  h.lookup key

/-- The loop of `ResponseWriter`: `VisitAll` with the callback that sets
`B2S(k)` to `B2S(v)` in `hdr`. -/
def flatten (canon : String → String) (hdr : Header) (visited : List (Bytes × Bytes)) :
    Header :=
  visited.foldl (fun h kv => Header.Set canon h (B2S kv.1) (B2S kv.2)) hdr

/-- The method `(*Ctx).ResponseWriter()`: `none` when the call dereferences a nil or
dangling pointer, else the new state and the returned adapter. -/
def Ctx.ResponseWriter (canon : String → String) (s : State) (ctx : Ptr) :
    Option (State × Ptr) :=
  match s.ctxs[ctx]? with
  | none => none
  | some c =>
    match c.rw with
    | some r => some (s, r)
    | none =>
      let a := acqRespWriter s
      match c.RequestCtx with
      | none => none
      | some b =>
        match a.1.bufs[b]? with
        | none => none
        | some rc =>
          let w : responseWriter :=
            { ctx := some ctx, hdr := some (flatten canon [] rc.respHeader) }
          some ({ a.1 with
                    rws := a.1.rws.set a.2 w,
                    ctxs := a.1.ctxs.set ctx { c with rw := some a.2 } }, a.2)

/-- What a handler or the routing engine does with a live context between
`AcquireCtx` and `ReleaseCtx`: the four mutating methods, the routing engine's
assignments to `pathName` and `error`, and a change of the response buffer's
headers through the buffer itself. -/
inductive Op where
  | next
  | defer (f : Func)
  | url
  | responseWriter
  | setPathName (p : String)
  | setError (e : Bool)
  | setRespHeader (h : List (Bytes × Bytes))
deriving DecidableEq

/-- The assignment `ctx.pathName = p`. -/
def Ctx.setPathName (s : State) (ctx : Ptr) (p : String) : State :=
  { s with ctxs := s.ctxs.set ctx { (s.ctxs.getD ctx Ctx.zero) with pathName := p } }

/-- The assignment `ctx.error = e`. -/
def Ctx.setError (s : State) (ctx : Ptr) (e : Bool) : State :=
  { s with ctxs := s.ctxs.set ctx { (s.ctxs.getD ctx Ctx.zero) with error := e } }

/-- The response headers of the buffer `ctx` is bound to become `h`; nothing
changes for a context without a buffer. -/
def Ctx.setRespHeader (s : State) (ctx : Ptr) (h : List (Bytes × Bytes)) : State :=
  match (s.ctxs.getD ctx Ctx.zero).RequestCtx with
  | none => s
  | some b =>
    match s.bufs[b]? with
    | none => s
    | some rc => { s with bufs := s.bufs.set b { rc with respHeader := h } }

/-- One operation on the context `ctx`; `none` when it dereferences a nil or
dangling pointer. -/
def Ctx.apply (canon : String → String) (s : State) (ctx : Ptr) : Op → Option State
  | .next => some (Ctx.Next s ctx)
  | .defer f => some (Ctx.Defer s ctx f)
  | .url => (Ctx.URL s ctx).map Prod.fst
  | .responseWriter => (Ctx.ResponseWriter canon s ctx).map Prod.fst
  | .setPathName p => some (Ctx.setPathName s ctx p)
  | .setError e => some (Ctx.setError s ctx e)
  | .setRespHeader h => some (Ctx.setRespHeader s ctx h)

/-- A sequence of operations on the context `ctx`, left to right. -/
def Ctx.applyAll (canon : String → String) (s : State) (ctx : Ptr) :
    List Op → Option State
  | [] => some s
  | o :: os =>
    match Ctx.apply canon s ctx o with
    | none => none
    | some s1 => Ctx.applyAll canon s1 ctx os

/-- A call of the package by the server: acquire a context for a buffer, use a
context, release a context. -/
inductive Call where
  | acquire (b : Option Ptr)
  | use (c : Ptr) (o : Op)
  | release (c : Ptr)
deriving DecidableEq

/-- The memory together with the contexts that are live: acquired and not yet
released. -/
structure Sys where
  mem : State
  live : List Ptr
deriving DecidableEq

/-- The system before any call. -/
def Sys.init (bufs : List RequestCtx) : Sys := { mem := State.init bufs, live := [] }

/-- One call; `use` and `release` are only defined on a live context. -/
def Sys.step (canon : String → String) (y : Sys) : Call → Option Sys
  | .acquire b =>
    let r := AcquireCtx y.mem b
    some { mem := r.1, live := r.2 :: y.live }
  | .use c o =>
    if c ∈ y.live then
      (Ctx.apply canon y.mem c o).map (fun m => { mem := m, live := y.live })
    else none
  | .release c =>
    if c ∈ y.live then some { mem := ReleaseCtx y.mem c, live := y.live.erase c }
    else none

/-- A sequence of calls, left to right. -/
def Sys.run (canon : String → String) (y : Sys) : List Call → Option Sys
  | [] => some y
  | k :: ks =>
    match Sys.step canon y k with
    | none => none
    | some y1 => Sys.run canon y1 ks

/-- The number of `AcquireCtx` calls in a sequence. -/
def acquires (t : List Call) : Nat :=
  t.countP (fun k => match k with | .acquire _ => true | _ => false)

/-- The number of `ReleaseCtx` calls in a sequence. -/
def releases (t : List Call) : Nat :=
  t.countP (fun k => match k with | .release _ => true | _ => false)

/-- Buffer B1 of the scenario: path `/a`, query `x=1`. -/
def bufB1 : RequestCtx :=
  { uri := { scheme := "http", path := "/a", host := "h", queryString := "x=1" },
    respHeader := [] }

/-- Buffer B2 of the scenario: path `/b`, query `y=2`. -/
def bufB2 : RequestCtx :=
  { uri := { scheme := "http", path := "/b", host := "h", queryString := "y=2" },
    respHeader := [] }

/-- The scenario: acquire for B1, `URL()`, release, acquire for B2 (reusing the
pooled context), `URL()`. -/
def scenario : List Call :=
  [.acquire (some 0), .use 0 .url, .release 0, .acquire (some 1), .use 0 .url]

/-- The value of the last visited header whose canonical key is `k`, `none`
when no visited header has that key. -/
def lastValue (canon : String → String) : List (Bytes × Bytes) → String → Option String
  | [], _ => none
  | kv :: rest, k =>
    match lastValue canon rest k with
    | some v => some v
    | none => if canon (B2S kv.1) = k then some (B2S kv.2) else none

/-- A header map that is a snapshot of the visited headers, as the spec words
it: every header the response buffer holds is in the map, its value among the
values of its canonical key. -/
def isSnapshot (canon : String → String) (hdr : Header) (visited : List (Bytes × Bytes)) :
    Bool :=
  visited.all (fun kv =>
    match Header.entry hdr (canon (B2S kv.1)) with
    | some vs => vs.contains (B2S kv.2)
    | none => false)

/-- The call `f()` of a closure: `f` is entered in the log of invoked
closures. -/
def invoke (s : State) (f : Func) : State := { s with ran := s.ran ++ [f] }

/-- The release path as the spec words it: the deferred actions of the context
run in append order, each once, and after them the owned URL and the adapter
are released and the context is pooled, as `ReleaseCtx` does. -/
def releaseSpec (s : State) (ctx : Ptr) : State :=
  ReleaseCtx ((s.ctxs.getD ctx Ctx.zero).deferFuncs.foldl invoke s) ctx

/-- The assignment `ctx.deferFuncs = fs`. -/
def Ctx.setDeferFuncs (s : State) (ctx : Ptr) (fs : List Func) : State :=
  { s with ctxs := s.ctxs.set ctx { (s.ctxs.getD ctx Ctx.zero) with deferFuncs := fs } }

/-- A call of the URL pool: `AcquireURL(uri)` or `ReleaseURL(url)`. -/
inductive URLCall where
  | acquire (uri : URI)
  | release (url : Option Ptr)
deriving DecidableEq

/-- A sequence of URL-pool calls, left to right; a released non-nil pointer
has to point at a URL of the heap. -/
def runURL (s : State) : List URLCall → Option State
  | [] => some s
  | .acquire uri :: t => runURL (AcquireURL s uri).1 t
  | .release none :: t => runURL (ReleaseURL s none) t
  | .release (some u) :: t =>
    if u < s.urls.length then runURL (ReleaseURL s (some u)) t else none

/-- A sequence of URL-pool calls in which a URL is released only while it is
held: `held` lists the URLs that `AcquireURL` returned and that have not been
released since. -/
def runURLHeld (s : State) (held : List Ptr) : List URLCall → Option (State × List Ptr)
  | [] => some (s, held)
  | .acquire uri :: t => runURLHeld (AcquireURL s uri).1 ((AcquireURL s uri).2 :: held) t
  | .release none :: t => runURLHeld (ReleaseURL s none) held t
  | .release (some u) :: t =>
    if u ∈ held then runURLHeld (ReleaseURL s (some u)) (held.erase u) t else none

/-- No URL is held twice or pooled twice, none is both held and pooled, and
held and pooled pointers point at URLs of the heap. -/
def HeldOk (s : State) (held : List Ptr) : Prop :=
  held.Nodup ∧ s.urlPool.Nodup ∧ (∀ u ∈ held, u ∉ s.urlPool) ∧
  (∀ u ∈ held, u < s.urls.length) ∧ (∀ u ∈ s.urlPool, u < s.urls.length)

/-- The URL pool after one URL was acquired and then released twice. -/
def memTwiceReleased : State :=
  ReleaseURL (ReleaseURL (AcquireURL (State.init []) bufB1.uri).1 (some 0)) (some 0)

/-- The URL that `AcquireURL(uri)` is to return: the four fields of `uri`,
every other field zero. -/
def urlOf (uri : URI) : URL :=
  { Scheme := uri.scheme, Opaque := "", User := none, Host := uri.host, Path := uri.path,
    RawPath := "", OmitHost := false, ForceQuery := false, RawQuery := uri.queryString,
    Fragment := "", RawFragment := "" }

/-- A URL whose fields other than `Scheme`, `Path`, `Host`, `RawQuery` are
zero. -/
def URL.restZero (u : URL) : Prop :=
  u.Opaque = "" ∧ u.User = none ∧ u.RawPath = "" ∧ u.OmitHost = false ∧
  u.ForceQuery = false ∧ u.Fragment = "" ∧ u.RawFragment = ""

/-- The pooled URLs are URLs of the heap and their fields other than the four
are zero. -/
def URLPoolOk (s : State) : Prop :=
  ∀ v ∈ s.urlPool, v < s.urls.length ∧ (s.urls.getD v URL.zero).restZero

/-- The free-list discipline of the context pool: no context is acquired twice
or pooled twice, none is both live and pooled, live and pooled pointers point
at contexts of the heap, and a pooled context has `next = false`. -/
def Sys.Inv (y : Sys) : Prop :=
  y.live.Nodup ∧ y.mem.ctxPool.Nodup ∧ (∀ c ∈ y.live, c ∉ y.mem.ctxPool) ∧
  (∀ c ∈ y.live, c < y.mem.ctxs.length) ∧
  (∀ c ∈ y.mem.ctxPool, c < y.mem.ctxs.length) ∧
  (∀ c ∈ y.mem.ctxPool, (y.mem.ctxs.getD c Ctx.zero).next = false)

/-- The URL that `URL()` yields on a context reacquired for buffer `b2` after a
first request on buffer `b1` that called `URL()` and was released: acquire for
`b1`, `URL()`, release, acquire for `b2`, `URL()`, read the returned URL. -/
def reacquiredURL (b1 b2 : RequestCtx) : Option URL :=
  let s0 := State.init [b1, b2]
  let a1 := AcquireCtx s0 (some 0)
  match Ctx.URL a1.1 a1.2 with
  | none => none
  | some (s2, _) =>
    let s3 := ReleaseCtx s2 a1.2
    let a4 := AcquireCtx s3 (some 1)
    match Ctx.URL a4.1 a4.2 with
    | none => none
    | some (s5, u) => s5.urls[u]?

/-- A memory with one live context, acquired for buffer B1 out of B1, B2. -/
def mem1 : State := (AcquireCtx (State.init [bufB1, bufB2]) (some 0)).1

/-- The memory `mem1` after `URL()` on its context. -/
def mem2 : State := ((Ctx.URL mem1 0).map Prod.fst).getD mem1

/-- A request that uses every operation: matched path, a deferred action,
`URL()`, `ResponseWriter()`, the error flag, `Next()`. -/
def busyOps : List Op :=
  [.setPathName "/users/:id", .defer 7, .url, .responseWriter, .setError true, .next]

/-- The memory `mem1` after the request `busyOps` on its context. -/
def mem3 : State := (Ctx.applyAll id mem1 0 busyOps).getD mem1

/-- Two requests in a row on one pooled context, the first calling `Next()`. -/
def twoRequests : List Call :=
  [.acquire (some 0), .use 0 .next, .release 0, .acquire (some 1)]

/-- Four acquires with two releases in between. -/
def sixCalls : List Call :=
  [.acquire (some 0), .acquire (some 1), .release 0, .acquire (some 0), .acquire none,
   .release 1]

/-- A buffer whose response already carries headers, one key twice. -/
def bufHdr : RequestCtx :=
  { uri := { scheme := "http", path := "/", host := "h", queryString := "" },
    respHeader := [("Server", "a"), ("X-Id", "1"), ("Server", "b")] }

/-- A buffer whose response sets two cookies. -/
def bufCookies : RequestCtx :=
  { uri := { scheme := "http", path := "/", host := "h", queryString := "" },
    respHeader := [("Set-Cookie", "a=1"), ("Set-Cookie", "b=2")] }

/-- A memory with one live context bound to `bufCookies`. -/
def memCookies : State := (AcquireCtx (State.init [bufCookies]) (some 0)).1

/-- A memory with one live context bound to `bufHdr`. -/
def memHdr : State := (AcquireCtx (State.init [bufHdr]) (some 0)).1

/-! ## Reading and writing the heaps -/

theorem getD_of_getElem? {α : Type} (l : List α) (i : Nat) (d x : α) (h : l[i]? = some x) :
    l.getD i d = x := by
  rw [List.getD_eq_getElem?_getD, h]; rfl

theorem lt_of_getElem? {α : Type} (l : List α) (i : Nat) (x : α) (h : l[i]? = some x) :
    i < l.length := by
  rcases List.getElem?_eq_some.mp h with ⟨hlt, _⟩
  exact hlt

theorem getD_set_self {α : Type} (l : List α) (i : Nat) (d a : α) (h : i < l.length) :
    (l.set i a).getD i d = a := by
  rw [List.getD_eq_getElem?_getD, List.getElem?_set_self h]; rfl

theorem getD_set_ne {α : Type} (l : List α) (i j : Nat) (d a : α) (h : i ≠ j) :
    (l.set i a).getD j d = l.getD j d := by
  rw [List.getD_eq_getElem?_getD, List.getD_eq_getElem?_getD, List.getElem?_set_ne h]

/-! ## `Defer` -/

theorem Defer_get (s : State) (c : Ptr) (x : Ctx) (f : Func) (h : s.ctxs[c]? = some x) :
    (Ctx.Defer s c f).ctxs[c]? = some { x with deferFuncs := x.deferFuncs ++ [f] } := by
  have hlt : c < s.ctxs.length := lt_of_getElem? _ _ _ h
  have hx : s.ctxs.getD c Ctx.zero = x := getD_of_getElem? _ _ _ _ h
  simp only [Ctx.Defer, hx]
  exact List.getElem?_set_self hlt

/-- C7: `Defer(f)` on a context `x` leaves the deferred-action list equal to the
previous list followed by `f` (one longer, earlier entries kept in order),
changes no other field of the context and nothing else in memory; three
`Defer` calls on an empty list yield exactly `[f1, f2, f3]`. -/
theorem Defer_appends (s : State) (c : Ptr) (x : Ctx) (f : Func) (h : s.ctxs[c]? = some x) :
    (Ctx.Defer s c f).ctxs[c]? =
        some { RequestCtx := x.RequestCtx, next := x.next, pathName := x.pathName,
               stdUrl := x.stdUrl, rw := x.rw, deferFuncs := x.deferFuncs ++ [f],
               error := x.error } ∧
      ((Ctx.Defer s c f).ctxs.getD c Ctx.zero).deferFuncs.length = x.deferFuncs.length + 1 ∧
      ((Ctx.Defer s c f).ctxs.getD c Ctx.zero).deferFuncs.take x.deferFuncs.length
        = x.deferFuncs ∧
      (∀ i, i ≠ c → (Ctx.Defer s c f).ctxs[i]? = s.ctxs[i]?) ∧
      (Ctx.Defer s c f).ctxs.length = s.ctxs.length ∧
      (Ctx.Defer s c f).bufs = s.bufs ∧ (Ctx.Defer s c f).urls = s.urls ∧
      (Ctx.Defer s c f).rws = s.rws ∧ (Ctx.Defer s c f).ctxPool = s.ctxPool ∧
      (Ctx.Defer s c f).urlPool = s.urlPool ∧ (Ctx.Defer s c f).rwPool = s.rwPool ∧
      (Ctx.Defer s c f).ran = s.ran ∧ (Ctx.Defer s c f).urlAcquires = s.urlAcquires ∧
      (x.deferFuncs = [] → ∀ f1 f2 f3 : Func,
        ((Ctx.Defer (Ctx.Defer (Ctx.Defer s c f1) c f2) c f3).ctxs[c]?).map Ctx.deferFuncs
          = some [f1, f2, f3]) := by
  have hlt : c < s.ctxs.length := lt_of_getElem? _ _ _ h
  have hx : s.ctxs.getD c Ctx.zero = x := getD_of_getElem? _ _ _ _ h
  have hD : ∀ (g : Func), Ctx.Defer s c g =
      { s with ctxs := s.ctxs.set c { x with deferFuncs := x.deferFuncs ++ [g] } } := by
    intro g
    simp only [Ctx.Defer, hx]
  rw [hD f]
  refine ⟨?_, ?_, ?_, ?_, ?_, rfl, rfl, rfl, rfl, rfl, rfl, rfl, rfl, ?_⟩
  · exact List.getElem?_set_self hlt
  · rw [getD_set_self _ _ _ _ hlt]; simp
  · rw [getD_set_self _ _ _ _ hlt]; simp
  · intro i hi
    exact List.getElem?_set_ne (Ne.symm hi)
  · exact List.length_set _ _ _
  · intro he f1 f2 f3
    have h1 := Defer_get s c x f1 h
    have h2 := Defer_get _ c _ f2 h1
    have h3 := Defer_get _ c _ f3 h2
    rw [h3]
    simp [he]

/-- The context of `mem3`, holding the deferred action 7, takes a further
action at the end of its list. -/
theorem Defer_appends_witness :
    mem3.ctxs[0]? = some { RequestCtx := some 0, next := true, pathName := "/users/:id",
                           stdUrl := some 0, rw := some 0, deferFuncs := [7],
                           error := true } ∧
      (Ctx.Defer mem3 0 9).ctxs[0]? =
        some { RequestCtx := some 0, next := true, pathName := "/users/:id",
               stdUrl := some 0, rw := some 0, deferFuncs := [7, 9], error := true } :=
  ⟨by decide,
   (Defer_appends mem3 0
      { RequestCtx := some 0, next := true, pathName := "/users/:id", stdUrl := some 0,
        rw := some 0, deferFuncs := [7], error := true } 9 (by decide)).1⟩

/-! ## The URL pool -/

/-- C8: in every memory, a context that never created a URL included (empty URL
heap), `ReleaseURL(nil)` returns without touching memory, the URL pool
included; and for every non-nil `u`, `ReleaseURL(u)` sets every field of `u` to
its zero value, puts exactly `u` on the URL pool, and leaves every other URL
and the rest of memory as they were. -/
theorem ReleaseURL_resets (s : State) :
    ReleaseURL s none = s ∧ (ReleaseURL s none).urlPool = s.urlPool ∧
      ∀ u, u < s.urls.length →
        (ReleaseURL s (some u)).urls[u]? =
          some { Scheme := "", Opaque := "", User := none, Host := "", Path := "",
                 RawPath := "", OmitHost := false, ForceQuery := false, RawQuery := "",
                 Fragment := "", RawFragment := "" } ∧
        (ReleaseURL s (some u)).urlPool = u :: s.urlPool ∧
        (∀ i, i ≠ u → (ReleaseURL s (some u)).urls[i]? = s.urls[i]?) ∧
        (ReleaseURL s (some u)).urls.length = s.urls.length ∧
        (ReleaseURL s (some u)).bufs = s.bufs ∧ (ReleaseURL s (some u)).ctxs = s.ctxs ∧
        (ReleaseURL s (some u)).rws = s.rws ∧ (ReleaseURL s (some u)).ctxPool = s.ctxPool ∧
        (ReleaseURL s (some u)).rwPool = s.rwPool := by
  refine ⟨rfl, rfl, ?_⟩
  intro u h
  refine ⟨?_, rfl, ?_, ?_, rfl, rfl, rfl, rfl, rfl⟩
  · exact List.getElem?_set_self h
  · intro i hi
    exact List.getElem?_set_ne (Ne.symm hi)
  · exact List.length_set _ _ _

/-- Releasing nil changes nothing in the empty memory and in `mem1`, whose
context never created a URL; releasing the URL of `mem2`, which holds the
fields of B1, zeroes it and pools it. -/
theorem ReleaseURL_resets_witness :
    ReleaseURL (State.init []) none = State.init [] ∧
      mem1.urls = [] ∧ (mem1.ctxs.getD 0 Ctx.zero).stdUrl = none ∧
      ReleaseURL mem1 (mem1.ctxs.getD 0 Ctx.zero).stdUrl = mem1 ∧
      mem2.urls[0]? =
        some { Scheme := "http", Opaque := "", User := none, Host := "h", Path := "/a",
               RawPath := "", OmitHost := false, ForceQuery := false, RawQuery := "x=1",
               Fragment := "", RawFragment := "" } ∧
      (ReleaseURL mem2 (some 0)).urls[0]? =
        some { Scheme := "", Opaque := "", User := none, Host := "", Path := "",
               RawPath := "", OmitHost := false, ForceQuery := false, RawQuery := "",
               Fragment := "", RawFragment := "" } ∧
      (ReleaseURL mem2 (some 0)).urlPool = [0] :=
  ⟨(ReleaseURL_resets (State.init [])).1, by decide, by decide,
   (ReleaseURL_resets mem1).1, by decide,
   ((ReleaseURL_resets mem2).2.2 0 (by decide)).1,
   ((ReleaseURL_resets mem2).2.2 0 (by decide)).2.1⟩

theorem AcquireURL_get (s : State) (uri : URI) (hp : URLPoolOk s) :
    (AcquireURL s uri).1.urls[(AcquireURL s uri).2]? = some (urlOf uri) := by
  unfold AcquireURL
  cases hpool : s.urlPool with
  | nil =>
    simp only []
    rw [List.getElem?_concat_length]
    rfl
  | cons v rest =>
    simp only []
    have hv := hp v (by rw [hpool]; exact List.mem_cons_self _ _)
    rw [List.getElem?_set_self hv.1]
    rcases hv.2 with ⟨h1, h2, h3, h4, h5, h6, h7⟩
    simp only [h1, h2, h3, h4, h5, h6, h7, urlOf, B2S]

theorem AcquireURL_ok (s : State) (uri : URI) (hp : URLPoolOk s) :
    URLPoolOk (AcquireURL s uri).1 := by
  unfold AcquireURL
  cases hpool : s.urlPool with
  | nil =>
    intro v hv
    simp only [hpool] at hv
    exact absurd hv (List.not_mem_nil _)
  | cons w rest =>
    intro v hv
    simp only at hv
    have hv0 := hp v (by rw [hpool]; exact List.mem_cons_of_mem _ hv)
    have hw := hp w (by rw [hpool]; exact List.mem_cons_self _ _)
    simp only [List.length_set]
    refine ⟨hv0.1, ?_⟩
    by_cases hvw : w = v
    · subst hvw
      rw [getD_set_self _ _ _ _ hw.1]
      exact hw.2
    · rw [getD_set_ne _ _ _ _ _ hvw]
      exact hv0.2

theorem ReleaseURL_ok (s : State) (u : Ptr) (h : u < s.urls.length) (hp : URLPoolOk s) :
    URLPoolOk (ReleaseURL s (some u)) := by
  intro v hv
  simp only [ReleaseURL, List.length_set] at hv ⊢
  have hz : zeroUrl.restZero := ⟨rfl, rfl, rfl, rfl, rfl, rfl, rfl⟩
  by_cases hvu : u = v
  · subst hvu
    rw [getD_set_self _ _ _ _ h]
    exact ⟨h, hz⟩
  · rw [getD_set_ne _ _ _ _ _ hvu]
    rcases List.mem_cons.mp hv with h1 | h1
    · exact absurd h1.symm hvu
    · exact hp v h1

theorem runURL_ok (t : List URLCall) :
    ∀ (s0 s : State), URLPoolOk s0 → runURL s0 t = some s → URLPoolOk s := by
  induction t with
  | nil =>
    intro s0 s h0 hr
    simp only [runURL, Option.some.injEq] at hr
    rw [← hr]; exact h0
  | cons k ks ih =>
    intro s0 s h0 hr
    cases k with
    | acquire uri =>
      simp only [runURL] at hr
      exact ih _ _ (AcquireURL_ok s0 uri h0) hr
    | release url =>
      cases url with
      | none =>
        simp only [runURL, ReleaseURL] at hr
        exact ih _ _ h0 hr
      | some u =>
        simp only [runURL] at hr
        split at hr
        · rename_i hu
          exact ih _ _ (ReleaseURL_ok s0 u hu h0) hr
        · exact absurd hr (by simp)

theorem AcquireURL_held (s : State) (held : List Ptr) (uri : URI) (h : HeldOk s held) :
    HeldOk (AcquireURL s uri).1 ((AcquireURL s uri).2 :: held) ∧
      (AcquireURL s uri).2 ∉ (AcquireURL s uri).1.urlPool ∧ (AcquireURL s uri).2 ∉ held := by
  rcases h with ⟨hh, hp, hd, hhv, hpv⟩
  unfold AcquireURL
  cases hpool : s.urlPool with
  | nil =>
    have hfresh : s.urls.length ∉ held := fun hm => Nat.lt_irrefl _ (hhv _ hm)
    refine ⟨⟨List.nodup_cons.mpr ⟨hfresh, hh⟩, List.nodup_nil, ?_, ?_, ?_⟩,
      List.not_mem_nil _, hfresh⟩
    · intro u _; exact List.not_mem_nil _
    · intro u hu
      simp only [List.length_append, List.length_singleton]
      rcases List.mem_cons.mp hu with e | e
      · rw [e]; exact Nat.lt_succ_self _
      · exact Nat.lt_succ_of_lt (hhv u e)
    · intro u hu; exact absurd hu (List.not_mem_nil _)
  | cons v rest =>
    rw [hpool] at hp hd hpv
    have hvrest : v ∉ rest := (List.nodup_cons.mp hp).1
    have hvheld : v ∉ held := fun hm => hd v hm (List.mem_cons_self _ _)
    refine ⟨⟨List.nodup_cons.mpr ⟨hvheld, hh⟩, (List.nodup_cons.mp hp).2, ?_, ?_, ?_⟩,
      hvrest, hvheld⟩
    · intro u hu
      rcases List.mem_cons.mp hu with e | e
      · rw [e]; exact hvrest
      · exact fun hm => hd u e (List.mem_cons_of_mem _ hm)
    · intro u hu
      simp only [List.length_set]
      rcases List.mem_cons.mp hu with e | e
      · rw [e]; exact hpv v (List.mem_cons_self _ _)
      · exact hhv u e
    · intro u hu
      simp only [List.length_set]
      exact hpv u (List.mem_cons_of_mem _ hu)

theorem ReleaseURL_held (s : State) (held : List Ptr) (u : Ptr) (hu : u ∈ held)
    (h : HeldOk s held) : HeldOk (ReleaseURL s (some u)) (held.erase u) := by
  rcases h with ⟨hh, hp, hd, hhv, hpv⟩
  refine ⟨hh.erase u, List.nodup_cons.mpr ⟨hd u hu, hp⟩, ?_, ?_, ?_⟩
  · intro a ha hm
    rcases (List.Nodup.mem_erase_iff hh).mp ha with ⟨hne, hmem⟩
    rcases List.mem_cons.mp hm with e | e
    · exact hne e
    · exact hd a hmem e
  · intro a ha
    simp only [ReleaseURL, List.length_set]
    exact hhv a (List.mem_of_mem_erase ha)
  · intro a ha
    simp only [ReleaseURL, List.length_set]
    rcases List.mem_cons.mp ha with e | e
    · rw [e]; exact hhv u hu
    · exact hpv a e

theorem runURLHeld_ok (t : List URLCall) :
    ∀ (s0 s : State) (held0 held : List Ptr), HeldOk s0 held0 →
      runURLHeld s0 held0 t = some (s, held) → HeldOk s held := by
  induction t with
  | nil =>
    intro s0 s held0 held h0 hr
    simp only [runURLHeld, Option.some.injEq, Prod.mk.injEq] at hr
    rw [← hr.1, ← hr.2]; exact h0
  | cons k ks ih =>
    intro s0 s held0 held h0 hr
    cases k with
    | acquire uri =>
      simp only [runURLHeld] at hr
      exact ih _ _ _ _ (AcquireURL_held s0 held0 uri h0).1 hr
    | release url =>
      cases url with
      | none =>
        simp only [runURLHeld, ReleaseURL] at hr
        exact ih _ _ _ _ h0 hr
      | some u =>
        simp only [runURLHeld] at hr
        split at hr
        · rename_i hu
          exact ih _ _ _ _ (ReleaseURL_held s0 held0 u hu h0) hr
        · exact absurd hr (by simp)

/-- C9 (the claim fails): a reused instance is not always removed from the pool.
After `AcquireURL`, `ReleaseURL(u0)`, `ReleaseURL(u0)`, a state reached through
`AcquireURL`/`ReleaseURL` calls only, the pool is `[u0, u0]`; `AcquireURL` then
returns `u0`, and `u0` is still in the pool. -/
theorem AcquireURL_reused_still_pooled :
    runURL (State.init []) [.acquire bufB1.uri, .release (some 0), .release (some 0)]
        = some memTwiceReleased ∧
      memTwiceReleased.urlPool = [0, 0] ∧
      (AcquireURL memTwiceReleased bufB2.uri).2 = 0 ∧
      (AcquireURL memTwiceReleased bufB2.uri).1.urlPool = [0] ∧
      (AcquireURL memTwiceReleased bufB2.uri).2 ∈
        (AcquireURL memTwiceReleased bufB2.uri).1.urlPool := by
  refine ⟨by decide, by decide, by decide, by decide, by decide⟩

/-- C9 (amended): in every memory `s` reached from an empty URL pool through
`AcquireURL` and `ReleaseURL` calls only, `AcquireURL(uri)` returns a URL whose
`Scheme`, `Path`, `Host`, `RawQuery` are those of `uri` and whose every other
field is zero, the same on an empty pool (a new URL) and on a non-empty one
(the pooled head `v`, reused); reuse takes one reference to `v` off the pool;
and when every URL was released only while held, the returned instance is no
longer in the pool and is held by no one else. -/
theorem AcquireURL_populates (s0 s : State) (t : List URLCall) (uri : URI)
    (h0 : s0.urlPool = []) (hr : runURL s0 t = some s) :
    (AcquireURL s uri).1.urls[(AcquireURL s uri).2]? =
        some { Scheme := uri.scheme, Opaque := "", User := none, Host := uri.host,
               Path := uri.path, RawPath := "", OmitHost := false, ForceQuery := false,
               RawQuery := uri.queryString, Fragment := "", RawFragment := "" } ∧
      (s.urlPool = [] →
        (AcquireURL s uri).2 = s.urls.length ∧ (AcquireURL s uri).1.urlPool = [] ∧
        (AcquireURL s uri).1.urls.length = s.urls.length + 1) ∧
      (∀ v rest, s.urlPool = v :: rest →
        (AcquireURL s uri).2 = v ∧ v < s.urls.length ∧
        (AcquireURL s uri).1.urlPool = rest ∧
        (AcquireURL s uri).1.urls.length = s.urls.length) ∧
      (∀ held, runURLHeld s0 [] t = some (s, held) →
        (AcquireURL s uri).2 ∉ (AcquireURL s uri).1.urlPool ∧
        (AcquireURL s uri).2 ∉ held) := by
  have hok0 : URLPoolOk s0 := by
    intro v hv
    rw [h0] at hv
    exact absurd hv (List.not_mem_nil _)
  have hok : URLPoolOk s := runURL_ok t s0 s hok0 hr
  refine ⟨AcquireURL_get s uri hok, ?_, ?_, ?_⟩
  · intro he
    simp [AcquireURL, he]
  · intro v rest he
    have hv := hok v (by rw [he]; exact List.mem_cons_self _ _)
    refine ⟨?_, hv.1, ?_, ?_⟩
    · simp [AcquireURL, he]
    · simp [AcquireURL, he]
    · simp [AcquireURL, he]
  · intro held hh
    have hinit : HeldOk s0 [] := by
      refine ⟨List.nodup_nil, by rw [h0]; exact List.nodup_nil, ?_, ?_, ?_⟩
      · intro u hu; exact absurd hu (List.not_mem_nil _)
      · intro u hu; exact absurd hu (List.not_mem_nil _)
      · intro u hu; rw [h0] at hu; exact absurd hu (List.not_mem_nil _)
    exact (AcquireURL_held s held uri (runURLHeld_ok t s0 s [] held hinit hh)).2

/-! ## Operations on one context -/

theorem set_getD_get (l : List Ctx) (c : Ptr) (g : Ctx → Ctx) :
    (l.set c (g (l.getD c Ctx.zero)))[c]? = (l[c]?).map g := by
  cases h : l[c]? with
  | none =>
    have hle : l.length ≤ c := by
      by_contra hlt
      rw [List.getElem?_eq_getElem (Nat.lt_of_not_le hlt)] at h
      exact absurd h (by simp)
    rw [List.getElem?_eq_none (by rw [List.length_set]; exact hle)]
    rfl
  | some x =>
    rw [getD_of_getElem? _ _ _ _ h, List.getElem?_set_self (lt_of_getElem? _ _ _ h)]
    rfl

theorem URL_cases (s : State) (c : Ptr) (s1 : State) (u : Ptr)
    (h : Ctx.URL s c = some (s1, u)) :
    ∃ x, s.ctxs[c]? = some x ∧
      ((x.stdUrl = some u ∧ s1 = s) ∨
       (x.stdUrl = none ∧ ∃ b rc, x.RequestCtx = some b ∧ s.bufs[b]? = some rc ∧
          u = (AcquireURL s rc.uri).2 ∧
          s1 = { (AcquireURL s rc.uri).1 with
                  ctxs := (AcquireURL s rc.uri).1.ctxs.set c { x with stdUrl := some u } })) := by
  unfold Ctx.URL at h
  cases hc : s.ctxs[c]? with
  | none => rw [hc] at h; exact absurd h (by simp)
  | some x =>
    rw [hc] at h
    refine ⟨x, rfl, ?_⟩
    cases hu : x.stdUrl with
    | some v =>
      simp only [hu, Option.some.injEq, Prod.mk.injEq] at h
      left
      exact ⟨by rw [h.2], h.1.symm⟩
    | none =>
      right
      simp only [hu] at h
      cases hb : x.RequestCtx with
      | none => simp only [hb] at h; exact absurd h (by simp)
      | some b =>
        simp only [hb] at h
        cases hrc : s.bufs[b]? with
        | none => simp only [hrc] at h; exact absurd h (by simp)
        | some rc =>
          simp only [hrc, Option.some.injEq, Prod.mk.injEq] at h
          refine ⟨rfl, b, rc, rfl, hrc, h.2.symm, ?_⟩
          rw [← h.1, ← h.2]

theorem AcquireURL_frame (s : State) (uri : URI) :
    (AcquireURL s uri).1.ctxs = s.ctxs ∧ (AcquireURL s uri).1.bufs = s.bufs ∧
      (AcquireURL s uri).1.rws = s.rws ∧ (AcquireURL s uri).1.ctxPool = s.ctxPool ∧
      (AcquireURL s uri).1.rwPool = s.rwPool ∧ (AcquireURL s uri).1.ran = s.ran ∧
      (AcquireURL s uri).1.urlAcquires = s.urlAcquires + 1 := by
  unfold AcquireURL
  cases s.urlPool <;> exact ⟨rfl, rfl, rfl, rfl, rfl, rfl, rfl⟩

theorem acqRespWriter_frame (s : State) :
    (acqRespWriter s).1.ctxs = s.ctxs ∧ (acqRespWriter s).1.bufs = s.bufs ∧
      (acqRespWriter s).1.urls = s.urls ∧ (acqRespWriter s).1.ctxPool = s.ctxPool ∧
      (acqRespWriter s).1.urlPool = s.urlPool ∧ (acqRespWriter s).1.ran = s.ran ∧
      (acqRespWriter s).1.urlAcquires = s.urlAcquires := by
  unfold acqRespWriter
  cases s.rwPool <;> exact ⟨rfl, rfl, rfl, rfl, rfl, rfl, rfl⟩

theorem ResponseWriter_cases (canon : String → String) (s : State) (c : Ptr) (s1 : State)
    (r : Ptr) (h : Ctx.ResponseWriter canon s c = some (s1, r)) :
    ∃ x, s.ctxs[c]? = some x ∧
      ((x.rw = some r ∧ s1 = s) ∨
       (x.rw = none ∧ ∃ b rc, x.RequestCtx = some b ∧ s.bufs[b]? = some rc ∧
          r = (acqRespWriter s).2 ∧
          s1 = { (acqRespWriter s).1 with
                  rws := (acqRespWriter s).1.rws.set r
                    { ctx := some c, hdr := some (flatten canon [] rc.respHeader) },
                  ctxs := (acqRespWriter s).1.ctxs.set c { x with rw := some r } })) := by
  unfold Ctx.ResponseWriter at h
  cases hc : s.ctxs[c]? with
  | none => rw [hc] at h; exact absurd h (by simp)
  | some x =>
    rw [hc] at h
    refine ⟨x, rfl, ?_⟩
    cases hu : x.rw with
    | some v =>
      simp only [hu, Option.some.injEq, Prod.mk.injEq] at h
      left
      exact ⟨by rw [h.2], h.1.symm⟩
    | none =>
      right
      simp only [hu] at h
      cases hb : x.RequestCtx with
      | none => simp only [hb] at h; exact absurd h (by simp)
      | some b =>
        simp only [hb, (acqRespWriter_frame s).2.1] at h
        cases hrc : s.bufs[b]? with
        | none => simp only [hrc] at h; exact absurd h (by simp)
        | some rc =>
          simp only [hrc, Option.some.injEq, Prod.mk.injEq] at h
          refine ⟨rfl, b, rc, rfl, hrc, h.2.symm, ?_⟩
          rw [← h.1, ← h.2]
          simp only [(acqRespWriter_frame s).2.1]

/-- What one operation does to the context it is applied to. -/
theorem apply_effect (canon : String → String) (s s1 : State) (c : Ptr) (o : Op) (x : Ctx)
    (h : Ctx.apply canon s c o = some s1) (hx : s.ctxs[c]? = some x) :
    ∃ x1, s1.ctxs[c]? = some x1 ∧
      (x.next = true → x1.next = true) ∧
      (∀ u, x.stdUrl = some u →
        x1.stdUrl = some u ∧ s1.urlAcquires = s.urlAcquires ∧ s1.urls = s.urls ∧
        s1.urlPool = s.urlPool) ∧
      (x.stdUrl = none →
        (x1.stdUrl = none ∧ s1.urlAcquires = s.urlAcquires) ∨
        (x1.stdUrl ≠ none ∧ s1.urlAcquires = s.urlAcquires + 1)) ∧
      (∀ r, x.rw = some r → x1.rw = some r ∧ s1.rws = s.rws) := by
  have hlt : c < s.ctxs.length := lt_of_getElem? _ _ _ hx
  have hD : s.ctxs.getD c Ctx.zero = x := getD_of_getElem? _ _ _ _ hx
  cases o with
  | next =>
    simp only [Ctx.apply, Ctx.Next, hD, Option.some.injEq] at h
    subst h
    refine ⟨_, List.getElem?_set_self hlt, fun _ => rfl, fun u hu => ⟨hu, rfl, rfl, rfl⟩,
      fun hn => Or.inl ⟨hn, rfl⟩, fun r hr => ⟨hr, rfl⟩⟩
  | defer f =>
    simp only [Ctx.apply, Ctx.Defer, hD, Option.some.injEq] at h
    subst h
    refine ⟨_, List.getElem?_set_self hlt, fun hn => hn, fun u hu => ⟨hu, rfl, rfl, rfl⟩,
      fun hn => Or.inl ⟨hn, rfl⟩, fun r hr => ⟨hr, rfl⟩⟩
  | setPathName p =>
    simp only [Ctx.apply, Ctx.setPathName, hD, Option.some.injEq] at h
    subst h
    refine ⟨_, List.getElem?_set_self hlt, fun hn => hn, fun u hu => ⟨hu, rfl, rfl, rfl⟩,
      fun hn => Or.inl ⟨hn, rfl⟩, fun r hr => ⟨hr, rfl⟩⟩
  | setError e =>
    simp only [Ctx.apply, Ctx.setError, hD, Option.some.injEq] at h
    subst h
    refine ⟨_, List.getElem?_set_self hlt, fun hn => hn, fun u hu => ⟨hu, rfl, rfl, rfl⟩,
      fun hn => Or.inl ⟨hn, rfl⟩, fun r hr => ⟨hr, rfl⟩⟩
  | setRespHeader hs =>
    simp only [Ctx.apply, Ctx.setRespHeader, hD, Option.some.injEq] at h
    have hs1 : s1.ctxs = s.ctxs ∧ s1.urlAcquires = s.urlAcquires ∧ s1.urls = s.urls ∧
        s1.urlPool = s.urlPool ∧ s1.rws = s.rws := by
      cases hb : x.RequestCtx with
      | none => simp only [hb] at h; subst h; exact ⟨rfl, rfl, rfl, rfl, rfl⟩
      | some b =>
        simp only [hb] at h
        cases hrc : s.bufs[b]? with
        | none => simp only [hrc] at h; subst h; exact ⟨rfl, rfl, rfl, rfl, rfl⟩
        | some rc => simp only [hrc] at h; subst h; exact ⟨rfl, rfl, rfl, rfl, rfl⟩
    refine ⟨x, by rw [hs1.1]; exact hx, fun hn => hn,
      fun u hu => ⟨hu, hs1.2.1, hs1.2.2.1, hs1.2.2.2.1⟩,
      fun hn => Or.inl ⟨hn, hs1.2.1⟩, fun r hr => ⟨hr, hs1.2.2.2.2⟩⟩
  | url =>
    have h : ∃ u, Ctx.URL s c = some (s1, u) := by
      simp only [Ctx.apply] at h
      cases hU : Ctx.URL s c with
      | none => rw [hU] at h; exact absurd h (by simp)
      | some q =>
        rw [hU] at h
        simp only [Option.map_some', Option.some.injEq] at h
        exact ⟨q.2, by rw [← h]⟩
    rcases h with ⟨u, h⟩
    rcases URL_cases s c s1 u h with ⟨x0, hx0, hcase⟩
    rw [hx] at hx0
    cases hx0
    rcases hcase with ⟨hu, hs⟩ | ⟨hu, b, rc, _, _, _, hs⟩
    · subst hs
      refine ⟨x, hx, fun hn => hn, fun v hv => ⟨hv, rfl, rfl, rfl⟩,
        fun hn => Or.inl ⟨hn, rfl⟩, fun r hr => ⟨hr, rfl⟩⟩
    · have hf := AcquireURL_frame s rc.uri
      have hlt1 : c < (AcquireURL s rc.uri).1.ctxs.length := by rw [hf.1]; exact hlt
      subst hs
      refine ⟨_, List.getElem?_set_self hlt1, fun hn => hn, ?_, ?_, ?_⟩
      · intro v hv
        rw [hu] at hv
        exact absurd hv (by simp)
      · intro _
        exact Or.inr ⟨by simp, hf.2.2.2.2.2.2⟩
      · intro r hr
        exact ⟨hr, hf.2.2.1⟩
  | responseWriter =>
    have h : ∃ r0, Ctx.ResponseWriter canon s c = some (s1, r0) := by
      simp only [Ctx.apply] at h
      cases hU : Ctx.ResponseWriter canon s c with
      | none => rw [hU] at h; exact absurd h (by simp)
      | some q =>
        rw [hU] at h
        simp only [Option.map_some', Option.some.injEq] at h
        exact ⟨q.2, by rw [← h]⟩
    rcases h with ⟨r0, h⟩
    rcases ResponseWriter_cases canon s c s1 r0 h with ⟨x0, hx0, hcase⟩
    rw [hx] at hx0
    cases hx0
    rcases hcase with ⟨hu, hs⟩ | ⟨hu, b, rc, _, _, _, hs⟩
    · subst hs
      refine ⟨x, hx, fun hn => hn, fun v hv => ⟨hv, rfl, rfl, rfl⟩,
        fun hn => Or.inl ⟨hn, rfl⟩, fun r hr => ⟨hr, rfl⟩⟩
    · have hf := acqRespWriter_frame s
      have hlt1 : c < (acqRespWriter s).1.ctxs.length := by rw [hf.1]; exact hlt
      subst hs
      refine ⟨_, List.getElem?_set_self hlt1, fun hn => hn, ?_, ?_, ?_⟩
      · intro v hv
        exact ⟨hv, hf.2.2.2.2.2.2, hf.2.2.1, hf.2.2.2.2.1⟩
      · intro hn
        exact Or.inl ⟨hn, hf.2.2.2.2.2.2⟩
      · intro r hr
        rw [hu] at hr
        exact absurd hr (by simp)

/-- An operation on a context bound to a buffer of the heap returns, and the
context stays bound to that buffer. -/
theorem apply_total (canon : String → String) (s : State) (c b : Ptr) (o : Op) (x : Ctx)
    (hx : s.ctxs[c]? = some x) (hb : x.RequestCtx = some b) (hlt : b < s.bufs.length) :
    ∃ s1 x1, Ctx.apply canon s c o = some s1 ∧ s1.ctxs[c]? = some x1 ∧
      x1.RequestCtx = some b ∧ b < s1.bufs.length := by
  have hc : c < s.ctxs.length := lt_of_getElem? _ _ _ hx
  have hD : s.ctxs.getD c Ctx.zero = x := getD_of_getElem? _ _ _ _ hx
  have hrc : s.bufs[b]? = some s.bufs[b] := List.getElem?_eq_getElem hlt
  cases o with
  | next =>
    exact ⟨_, { x with next := true }, rfl,
      by simp only [Ctx.Next, hD]; exact List.getElem?_set_self hc, hb, hlt⟩
  | defer f =>
    exact ⟨_, { x with deferFuncs := x.deferFuncs ++ [f] }, rfl,
      by simp only [Ctx.Defer, hD]; exact List.getElem?_set_self hc, hb, hlt⟩
  | setPathName p =>
    exact ⟨_, { x with pathName := p }, rfl,
      by simp only [Ctx.setPathName, hD]; exact List.getElem?_set_self hc, hb, hlt⟩
  | setError e =>
    exact ⟨_, { x with error := e }, rfl,
      by simp only [Ctx.setError, hD]; exact List.getElem?_set_self hc, hb, hlt⟩
  | setRespHeader hs =>
    refine ⟨_, x, rfl, ?_, hb, ?_⟩
    · simp only [Ctx.setRespHeader, hD, hb, hrc]
      exact hx
    · simp only [Ctx.setRespHeader, hD, hb, hrc, List.length_set]
      exact hlt
  | url =>
    cases hu : x.stdUrl with
    | some u =>
      refine ⟨s, x, ?_, hx, hb, hlt⟩
      simp only [Ctx.apply, Ctx.URL, hx, hu, Option.map_some']
    | none =>
      have hf := AcquireURL_frame s s.bufs[b].uri
      refine ⟨{ (AcquireURL s s.bufs[b].uri).1 with
                ctxs := (AcquireURL s s.bufs[b].uri).1.ctxs.set c
                  { x with stdUrl := some (AcquireURL s s.bufs[b].uri).2 } },
              { x with stdUrl := some (AcquireURL s s.bufs[b].uri).2 }, ?_, ?_, hb, ?_⟩
      · simp only [Ctx.apply, Ctx.URL, hx, hu, hb, hrc, Option.map_some']
      · exact List.getElem?_set_self (by rw [hf.1]; exact hc)
      · simp only [hf.2.1]; exact hlt
  | responseWriter =>
    cases hu : x.rw with
    | some r =>
      refine ⟨s, x, ?_, hx, hb, hlt⟩
      simp only [Ctx.apply, Ctx.ResponseWriter, hx, hu, Option.map_some']
    | none =>
      have hf := acqRespWriter_frame s
      refine ⟨{ (acqRespWriter s).1 with
                rws := (acqRespWriter s).1.rws.set (acqRespWriter s).2
                  { ctx := some c, hdr := some (flatten canon [] s.bufs[b].respHeader) },
                ctxs := (acqRespWriter s).1.ctxs.set c
                  { x with rw := some (acqRespWriter s).2 } },
              { x with rw := some (acqRespWriter s).2 }, ?_, ?_, hb, ?_⟩
      · simp only [Ctx.apply, Ctx.ResponseWriter, hx, hu, hb, hf.2.1, hrc, Option.map_some']
      · exact List.getElem?_set_self (by rw [hf.1]; exact hc)
      · simp only [hf.2.1]; exact hlt

/-- Any sequence of operations on a context bound to a buffer of the heap
returns. -/
theorem applyAll_total (canon : String → String) (c b : Ptr) (ops : List Op) :
    ∀ (s : State) (x : Ctx), s.ctxs[c]? = some x → x.RequestCtx = some b →
      b < s.bufs.length → ∃ s2, Ctx.applyAll canon s c ops = some s2 := by
  induction ops with
  | nil => intro s x _ _ _; exact ⟨s, rfl⟩
  | cons o os ih =>
    intro s x hx hb hlt
    rcases apply_total canon s c b o x hx hb hlt with ⟨s1, x1, h1, hx1, hb1, hlt1⟩
    rcases ih s1 x1 hx1 hb1 hlt1 with ⟨s2, h2⟩
    exact ⟨s2, by simp only [Ctx.applyAll, h1, h2]⟩

theorem applyAll_keeps_stdUrl (canon : String → String) (c : Ptr) (ops : List Op) :
    ∀ (s s2 : State) (x : Ctx) (u : Ptr), s.ctxs[c]? = some x → x.stdUrl = some u →
      Ctx.applyAll canon s c ops = some s2 →
      ∃ x2, s2.ctxs[c]? = some x2 ∧ x2.stdUrl = some u ∧
        s2.urlAcquires = s.urlAcquires ∧ s2.urls = s.urls ∧ s2.urlPool = s.urlPool := by
  induction ops with
  | nil =>
    intro s s2 x u hx hu h
    simp only [Ctx.applyAll, Option.some.injEq] at h
    subst h
    exact ⟨x, hx, hu, rfl, rfl, rfl⟩
  | cons o os ih =>
    intro s s2 x u hx hu h
    simp only [Ctx.applyAll] at h
    cases ha : Ctx.apply canon s c o with
    | none => rw [ha] at h; exact absurd h (by simp)
    | some s1 =>
      rw [ha] at h
      rcases apply_effect canon s s1 c o x ha hx with ⟨x1, hx1, _, hkeep, _, _⟩
      rcases hkeep u hu with ⟨hu1, hq, hurls, hpool⟩
      rcases ih s1 s2 x1 u hx1 hu1 h with ⟨x2, hx2, hu2, hq2, hurls2, hpool2⟩
      exact ⟨x2, hx2, hu2, by rw [hq2, hq], by rw [hurls2, hurls], by rw [hpool2, hpool]⟩

theorem applyAll_acquires_le (canon : String → String) (c : Ptr) (ops : List Op) :
    ∀ (s s2 : State) (x : Ctx), s.ctxs[c]? = some x →
      Ctx.applyAll canon s c ops = some s2 → s2.urlAcquires ≤ s.urlAcquires + 1 := by
  induction ops with
  | nil =>
    intro s s2 x _ h
    simp only [Ctx.applyAll, Option.some.injEq] at h
    subst h
    exact Nat.le_succ _
  | cons o os ih =>
    intro s s2 x hx h
    simp only [Ctx.applyAll] at h
    cases ha : Ctx.apply canon s c o with
    | none => rw [ha] at h; exact absurd h (by simp)
    | some s1 =>
      rw [ha] at h
      rcases apply_effect canon s s1 c o x ha hx with ⟨x1, hx1, _, hkeep, hnone, _⟩
      cases hu : x.stdUrl with
      | some u =>
        rcases hkeep u hu with ⟨hu1, hq, _, _⟩
        have := ih s1 s2 x1 hx1 h
        omega
      | none =>
        rcases hnone hu with ⟨_, hq⟩ | ⟨hu1, hq⟩
        · have := ih s1 s2 x1 hx1 h
          omega
        · cases hv : x1.stdUrl with
          | none => exact absurd hv hu1
          | some v =>
            rcases applyAll_keeps_stdUrl canon c os s1 s2 x1 v hx1 hv h with ⟨_, _, _, hq2, _, _⟩
            omega

/-! ## `URL` -/

/-- What follows once `URL()` has returned the instance `u`. -/
theorem URL_returned (canon : String → String) (s s1 : State) (c u : Ptr)
    (h : Ctx.URL s c = some (s1, u)) :
    Ctx.URL s1 c = some (s1, u) ∧
      (∀ ops s2, Ctx.applyAll canon s1 c ops = some s2 →
        Ctx.URL s2 c = some (s2, u) ∧ s2.urlAcquires = s1.urlAcquires ∧
        s2.urlPool = s1.urlPool) ∧
      (∀ ops s2, Ctx.applyAll canon s c ops = some s2 →
        s2.urlAcquires ≤ s.urlAcquires + 1) ∧
      ((s.ctxs.getD c Ctx.zero).stdUrl = none → s1.urlAcquires = s.urlAcquires + 1) ∧
      ((s.ctxs.getD c Ctx.zero).stdUrl ≠ none → s1 = s) := by
  rcases URL_cases s c s1 u h with ⟨x, hx, hcase⟩
  have hlt : c < s.ctxs.length := lt_of_getElem? _ _ _ hx
  have hD : s.ctxs.getD c Ctx.zero = x := getD_of_getElem? _ _ _ _ hx
  have hx1 : ∃ x1, s1.ctxs[c]? = some x1 ∧ x1.stdUrl = some u := by
    rcases hcase with ⟨hu, hs⟩ | ⟨hu, b, rc, _, _, _, hs⟩
    · subst hs
      exact ⟨x, hx, hu⟩
    · have hf := AcquireURL_frame s rc.uri
      have hlt1 : c < (AcquireURL s rc.uri).1.ctxs.length := by rw [hf.1]; exact hlt
      subst hs
      exact ⟨_, List.getElem?_set_self hlt1, rfl⟩
  rcases hx1 with ⟨x1, hx1, hu1⟩
  have hagain : ∀ (s2 : State) (x2 : Ctx), s2.ctxs[c]? = some x2 → x2.stdUrl = some u →
      Ctx.URL s2 c = some (s2, u) := by
    intro s2 x2 h2 hu2
    simp only [Ctx.URL, h2, hu2]
  refine ⟨hagain s1 x1 hx1 hu1, ?_, ?_, ?_, ?_⟩
  · intro ops s2 hops
    rcases applyAll_keeps_stdUrl canon c ops s1 s2 x1 u hx1 hu1 hops with
      ⟨x2, hx2, hu2, hq, _, hpool⟩
    exact ⟨hagain s2 x2 hx2 hu2, hq, hpool⟩
  · intro ops s2 hops
    exact applyAll_acquires_le canon c ops s s2 x hx hops
  · intro hn
    rw [hD] at hn
    rcases hcase with ⟨hu, _⟩ | ⟨_, b, rc, _, _, _, hs⟩
    · rw [hn] at hu
      exact absurd hu (by simp)
    · subst hs
      exact (AcquireURL_frame s rc.uri).2.2.2.2.2.2
  · intro hn
    rw [hD] at hn
    rcases hcase with ⟨_, hs⟩ | ⟨hu, _⟩
    · exact hs
    · exact absurd hu hn

/-- C4: on a context `x` bound to a buffer, `URL()` returns an instance `u`; a
second `URL()` right after returns the same `u` and leaves memory (the context
and the URL pool included) as it was; after any further operations of the
request `URL()` still returns `u`, with no further `AcquireURL` and the URL
pool untouched; and over any sequence of operations of the request
`AcquireURL` is called at most once: by the first `URL()` call, and only when
`stdUrl` was absent. -/
theorem URL_memoized (canon : String → String) (s : State) (c b : Ptr) (x : Ctx)
    (rc : RequestCtx) (hx : s.ctxs[c]? = some x) (hb : x.RequestCtx = some b)
    (hrc : s.bufs[b]? = some rc) :
    ∃ s1 u, Ctx.URL s c = some (s1, u) ∧ Ctx.URL s1 c = some (s1, u) ∧
      (∀ ops, ∃ s2, Ctx.applyAll canon s1 c ops = some s2 ∧
        Ctx.URL s2 c = some (s2, u) ∧ s2.urlAcquires = s1.urlAcquires ∧
        s2.urlPool = s1.urlPool) ∧
      (∀ ops, ∃ s2, Ctx.applyAll canon s c ops = some s2 ∧
        s2.urlAcquires ≤ s.urlAcquires + 1) ∧
      (x.stdUrl = none → s1.urlAcquires = s.urlAcquires + 1) ∧
      (x.stdUrl ≠ none → s1 = s) := by
  have hlt : b < s.bufs.length := lt_of_getElem? _ _ _ hrc
  have hD : s.ctxs.getD c Ctx.zero = x := getD_of_getElem? _ _ _ _ hx
  rcases apply_total canon s c b .url x hx hb hlt with ⟨s1, x1, h1, hx1, hb1, hlt1⟩
  have hU : ∃ u, Ctx.URL s c = some (s1, u) := by
    simp only [Ctx.apply] at h1
    cases hq : Ctx.URL s c with
    | none => rw [hq] at h1; exact absurd h1 (by simp)
    | some q =>
      rw [hq] at h1
      simp only [Option.map_some', Option.some.injEq] at h1
      exact ⟨q.2, by rw [← h1]⟩
  rcases hU with ⟨u, hU⟩
  rcases URL_returned canon s s1 c u hU with ⟨h2, h3, h4, h5, h6⟩
  refine ⟨s1, u, hU, h2, ?_, ?_, ?_, ?_⟩
  · intro ops
    rcases applyAll_total canon c b ops s1 x1 hx1 hb1 hlt1 with ⟨s2, hs2⟩
    exact ⟨s2, hs2, h3 ops s2 hs2⟩
  · intro ops
    rcases applyAll_total canon c b ops s x hx hb hlt with ⟨s2, hs2⟩
    exact ⟨s2, hs2, h4 ops s2 hs2⟩
  · intro hn
    exact h5 (by rw [hD]; exact hn)
  · intro hn
    exact h6 (by rw [hD]; exact hn)

/-! ## `ResponseWriter` -/

theorem lookup_filter_ne (h : Header) (k k1 : String) (hk : k ≠ k1) :
    List.lookup k (h.filter (fun p => p.1 ≠ k1)) = List.lookup k h := by
  induction h with
  | nil => rfl
  | cons p rest ih =>
    by_cases hp : p.1 = k1
    · have hkp : (k == p.1) = false := by
        rw [hp]; exact beq_false_of_ne hk
      rw [List.filter_cons_of_neg (by simp [hp]), ih]
      obtain ⟨a, b⟩ := p
      simp only [List.lookup_cons] at hkp ⊢
      rw [hkp]
    · rw [List.filter_cons_of_pos (by simp [hp])]
      obtain ⟨a, b⟩ := p
      simp only [List.lookup_cons, ih]

theorem entry_Set (canon : String → String) (h : Header) (key value k : String) :
    Header.entry (Header.Set canon h key value) k =
      if canon key = k then some [value] else Header.entry h k := by
  unfold Header.entry Header.Set
  by_cases hk : canon key = k
  · subst hk
    simp [List.lookup_cons]
  · have hne : k ≠ canon key := fun e => hk e.symm
    rw [List.lookup_cons, beq_false_of_ne hne, if_neg hk]
    exact lookup_filter_ne h k (canon key) hne

theorem entry_flatten (canon : String → String) (hs : List (Bytes × Bytes)) :
    ∀ (h0 : Header) (k : String),
      Header.entry (flatten canon h0 hs) k =
        match lastValue canon hs k with
        | some v => some [v]
        | none => Header.entry h0 k := by
  induction hs with
  | nil => intro h0 k; rfl
  | cons kv rest ih =>
    intro h0 k
    have hstep : flatten canon h0 (kv :: rest) =
        flatten canon (Header.Set canon h0 (B2S kv.1) (B2S kv.2)) rest := rfl
    rw [hstep, ih, entry_Set]
    simp only [lastValue]
    cases lastValue canon rest k with
    | some v => rfl
    | none =>
      by_cases hk : canon (B2S kv.1) = k
      · simp [hk]
      · simp [hk]

theorem applyAll_keeps_rw (canon : String → String) (c : Ptr) (ops : List Op) :
    ∀ (s s2 : State) (x : Ctx) (r : Ptr), s.ctxs[c]? = some x → x.rw = some r →
      Ctx.applyAll canon s c ops = some s2 →
      ∃ x2, s2.ctxs[c]? = some x2 ∧ x2.rw = some r ∧ s2.rws = s.rws := by
  induction ops with
  | nil =>
    intro s s2 x r hx hr h
    simp only [Ctx.applyAll, Option.some.injEq] at h
    subst h
    exact ⟨x, hx, hr, rfl⟩
  | cons o os ih =>
    intro s s2 x r hx hr h
    simp only [Ctx.applyAll] at h
    cases ha : Ctx.apply canon s c o with
    | none => rw [ha] at h; exact absurd h (by simp)
    | some s1 =>
      rw [ha] at h
      rcases apply_effect canon s s1 c o x ha hx with ⟨x1, hx1, _, _, _, hkeep⟩
      rcases hkeep r hr with ⟨hr1, hrws⟩
      rcases ih s1 s2 x1 r hx1 hr1 h with ⟨x2, hx2, hr2, hrws2⟩
      exact ⟨x2, hx2, hr2, by rw [hrws2, hrws]⟩

theorem lastValue_none (canon : String → String) (hs : List (Bytes × Bytes)) (k : String)
    (h : k ∉ hs.map (fun kv => canon (B2S kv.1))) : lastValue canon hs k = none := by
  induction hs with
  | nil => rfl
  | cons p rest ih =>
    simp only [List.map_cons, List.mem_cons, not_or] at h
    simp only [lastValue, ih h.2]
    exact if_neg (fun e => h.1 e.symm)

theorem lastValue_of_nodup (canon : String → String) (hs : List (Bytes × Bytes))
    (hn : (hs.map (fun kv => canon (B2S kv.1))).Nodup) (kv : Bytes × Bytes) (hm : kv ∈ hs) :
    lastValue canon hs (canon (B2S kv.1)) = some (B2S kv.2) := by
  induction hs with
  | nil => exact absurd hm (List.not_mem_nil _)
  | cons p rest ih =>
    simp only [List.map_cons, List.nodup_cons] at hn
    rcases List.mem_cons.mp hm with e | e
    · subst e
      simp only [lastValue, lastValue_none canon rest _ hn.1]
      exact if_pos trivial
    · simp only [lastValue, ih hn.2 e]

/-- C10 (the claim fails): the header map is not a snapshot of the response
buffer's headers when a key repeats. On a buffer that sets the cookies `a=1`
and `b=2`, the adapter `ResponseWriter()` returns holds the single entry
`Set-Cookie: b=2`; the header `Set-Cookie: a=1` of the buffer is not in the
map. -/
theorem ResponseWriter_not_snapshot :
    memCookies.bufs[0]? = some bufCookies ∧
      (Ctx.ResponseWriter id memCookies 0).map (fun q => q.1.rws[q.2]?) =
        some (some { ctx := some 0, hdr := some [("Set-Cookie", ["b=2"])] }) ∧
      isSnapshot id [("Set-Cookie", ["b=2"])] bufCookies.respHeader = false := by
  refine ⟨by decide, by decide, by decide⟩

/-- C10 (amended): on a context `x` with no adapter yet, bound to the buffer
`rc`, `ResponseWriter()` returns an adapter `r` bound to that context whose
header map, when the call returns, holds for every canonical key the one value
the response buffer's headers gave it last (earlier values of a repeated key
are dropped), is a snapshot of the headers when no key repeats, and is empty
when the buffer has no headers; any later operations of the request, changes
of the response buffer's headers included, return, and after them
`ResponseWriter()` returns the same adapter `r` and changes nothing in
memory: it does not build the map again. -/
theorem ResponseWriter_lastValues (canon : String → String) (s : State) (c b : Ptr) (x : Ctx)
    (rc : RequestCtx) (hx : s.ctxs[c]? = some x) (hrw : x.rw = none)
    (hb : x.RequestCtx = some b) (hrc : s.bufs[b]? = some rc)
    (hp : ∀ v ∈ s.rwPool, v < s.rws.length) :
    ∃ s1 r hdr, Ctx.ResponseWriter canon s c = some (s1, r) ∧
      s1.rws[r]? = some { ctx := some c, hdr := some hdr } ∧
      (∀ k, Header.entry hdr k = (lastValue canon rc.respHeader k).map (fun v => [v])) ∧
      ((rc.respHeader.map (fun kv => canon (B2S kv.1))).Nodup →
        isSnapshot canon hdr rc.respHeader = true) ∧
      (rc.respHeader = [] → hdr = []) ∧
      s1.ctxs[c]? = some { x with rw := some r } ∧
      (∀ ops, ∃ s2, Ctx.applyAll canon s1 c ops = some s2 ∧
        Ctx.ResponseWriter canon s2 c = some (s2, r)) := by
  have hf := acqRespWriter_frame s
  have hlt : c < s.ctxs.length := lt_of_getElem? _ _ _ hx
  have hlt1 : c < (acqRespWriter s).1.ctxs.length := by rw [hf.1]; exact hlt
  have hr : (acqRespWriter s).2 < (acqRespWriter s).1.rws.length := by
    unfold acqRespWriter
    cases hpool : s.rwPool with
    | nil => simp
    | cons v rest => exact hp v (by rw [hpool]; exact List.mem_cons_self _ _)
  have hcall : Ctx.ResponseWriter canon s c =
      some ({ (acqRespWriter s).1 with
                rws := (acqRespWriter s).1.rws.set (acqRespWriter s).2
                  { ctx := some c, hdr := some (flatten canon [] rc.respHeader) },
                ctxs := (acqRespWriter s).1.ctxs.set c
                  { x with rw := some (acqRespWriter s).2 } }, (acqRespWriter s).2) := by
    simp only [Ctx.ResponseWriter, hx, hrw, hb, hf.2.1, hrc]
  have hentry : ∀ k, Header.entry (flatten canon [] rc.respHeader) k =
      (lastValue canon rc.respHeader k).map (fun v => [v]) := by
    intro k
    rw [entry_flatten]
    cases lastValue canon rc.respHeader k <;> rfl
  refine ⟨_, _, flatten canon [] rc.respHeader, hcall, List.getElem?_set_self hr, hentry, ?_,
    ?_, List.getElem?_set_self hlt1, ?_⟩
  · intro hn
    simp only [isSnapshot, List.all_eq_true]
    intro kv hm
    rw [hentry, lastValue_of_nodup canon rc.respHeader hn kv hm]
    simp
  · intro he
    rw [he]; rfl
  · intro ops
    have hbl : b < (acqRespWriter s).1.bufs.length := by
      rw [hf.2.1]; exact lt_of_getElem? _ _ _ hrc
    rcases applyAll_total canon c b ops
      { (acqRespWriter s).1 with
          rws := (acqRespWriter s).1.rws.set (acqRespWriter s).2
            { ctx := some c, hdr := some (flatten canon [] rc.respHeader) },
          ctxs := (acqRespWriter s).1.ctxs.set c
            { x with rw := some (acqRespWriter s).2 } }
      { x with rw := some (acqRespWriter s).2 }
      (List.getElem?_set_self hlt1) hb hbl with ⟨s2, hops⟩
    rcases applyAll_keeps_rw canon c ops _ s2 _ (acqRespWriter s).2
      (List.getElem?_set_self hlt1) rfl hops with ⟨x2, hx2, hr2, _⟩
    refine ⟨s2, hops, ?_⟩
    simp only [Ctx.ResponseWriter, hx2, hr2]

/-! ## The context pool -/

theorem getD_congr {α : Type} (l m : List α) (i : Nat) (d : α) (h : m[i]? = l[i]?) :
    m.getD i d = l.getD i d := by
  rw [List.getD_eq_getElem?_getD, List.getD_eq_getElem?_getD, h]

/-- What one operation leaves alone: the context pool, the size of the context
heap and every other context. -/
theorem apply_frame (canon : String → String) (s s1 : State) (c : Ptr) (o : Op)
    (h : Ctx.apply canon s c o = some s1) :
    s1.ctxPool = s.ctxPool ∧ s1.ctxs.length = s.ctxs.length ∧
      (∀ i, i ≠ c → s1.ctxs[i]? = s.ctxs[i]?) := by
  cases o with
  | next =>
    simp only [Ctx.apply, Ctx.Next, Option.some.injEq] at h
    subst h
    exact ⟨rfl, List.length_set _ _ _, fun i hi => List.getElem?_set_ne (Ne.symm hi)⟩
  | defer f =>
    simp only [Ctx.apply, Ctx.Defer, Option.some.injEq] at h
    subst h
    exact ⟨rfl, List.length_set _ _ _, fun i hi => List.getElem?_set_ne (Ne.symm hi)⟩
  | setPathName p =>
    simp only [Ctx.apply, Ctx.setPathName, Option.some.injEq] at h
    subst h
    exact ⟨rfl, List.length_set _ _ _, fun i hi => List.getElem?_set_ne (Ne.symm hi)⟩
  | setError e =>
    simp only [Ctx.apply, Ctx.setError, Option.some.injEq] at h
    subst h
    exact ⟨rfl, List.length_set _ _ _, fun i hi => List.getElem?_set_ne (Ne.symm hi)⟩
  | setRespHeader hs =>
    simp only [Ctx.apply, Ctx.setRespHeader, Option.some.injEq] at h
    cases hb : (s.ctxs.getD c Ctx.zero).RequestCtx with
    | none => simp only [hb] at h; subst h; exact ⟨rfl, rfl, fun _ _ => rfl⟩
    | some b =>
      simp only [hb] at h
      cases hrc : s.bufs[b]? with
      | none => simp only [hrc] at h; subst h; exact ⟨rfl, rfl, fun _ _ => rfl⟩
      | some rc => simp only [hrc] at h; subst h; exact ⟨rfl, rfl, fun _ _ => rfl⟩
  | url =>
    have h : ∃ u, Ctx.URL s c = some (s1, u) := by
      simp only [Ctx.apply] at h
      cases hU : Ctx.URL s c with
      | none => rw [hU] at h; exact absurd h (by simp)
      | some q =>
        rw [hU] at h
        simp only [Option.map_some', Option.some.injEq] at h
        exact ⟨q.2, by rw [← h]⟩
    rcases h with ⟨u, h⟩
    rcases URL_cases s c s1 u h with ⟨x, _, hcase⟩
    rcases hcase with ⟨_, hs⟩ | ⟨_, b, rc, _, _, _, hs⟩
    · subst hs
      exact ⟨rfl, rfl, fun _ _ => rfl⟩
    · have hf := AcquireURL_frame s rc.uri
      subst hs
      refine ⟨hf.2.2.2.1, ?_, ?_⟩
      · simp only [List.length_set, hf.1]
      · intro i hi
        simp only [List.getElem?_set_ne (Ne.symm hi), hf.1]
  | responseWriter =>
    have h : ∃ r0, Ctx.ResponseWriter canon s c = some (s1, r0) := by
      simp only [Ctx.apply] at h
      cases hU : Ctx.ResponseWriter canon s c with
      | none => rw [hU] at h; exact absurd h (by simp)
      | some q =>
        rw [hU] at h
        simp only [Option.map_some', Option.some.injEq] at h
        exact ⟨q.2, by rw [← h]⟩
    rcases h with ⟨r0, h⟩
    rcases ResponseWriter_cases canon s c s1 r0 h with ⟨x, _, hcase⟩
    rcases hcase with ⟨_, hs⟩ | ⟨_, b, rc, _, _, _, hs⟩
    · subst hs
      exact ⟨rfl, rfl, fun _ _ => rfl⟩
    · have hf := acqRespWriter_frame s
      subst hs
      refine ⟨hf.2.2.2.1, ?_, ?_⟩
      · simp only [List.length_set, hf.1]
      · intro i hi
        simp only [List.getElem?_set_ne (Ne.symm hi), hf.1]

theorem release_parts_ctxs (s : State) (u r : Option Ptr) :
    (relRespWriter (ReleaseURL s u) r).ctxs = s.ctxs ∧
      (relRespWriter (ReleaseURL s u) r).ctxPool = s.ctxPool ∧
      (relRespWriter (ReleaseURL s u) r).ran = s.ran ∧
      (relRespWriter (ReleaseURL s u) r).bufs = s.bufs := by
  cases u <;> cases r <;> exact ⟨rfl, rfl, rfl, rfl⟩

theorem ReleaseCtx_frame (s : State) (c : Ptr) :
    (ReleaseCtx s c).ctxPool = c :: s.ctxPool ∧
      (ReleaseCtx s c).ctxs.length = s.ctxs.length ∧
      (∀ i, i ≠ c → (ReleaseCtx s c).ctxs[i]? = s.ctxs[i]?) ∧
      (ReleaseCtx s c).ctxs[c]? =
        (s.ctxs[c]?).map (fun x => { x with next := false }) := by
  have hp := release_parts_ctxs s (s.ctxs.getD c Ctx.zero).stdUrl (s.ctxs.getD c Ctx.zero).rw
  refine ⟨?_, ?_, ?_, ?_⟩
  · simp only [ReleaseCtx, hp.2.1]
  · simp only [ReleaseCtx, List.length_set, hp.1]
  · intro i hi
    simp only [ReleaseCtx, List.getElem?_set_ne (Ne.symm hi), hp.1]
  · simp only [ReleaseCtx, hp.1]
    exact set_getD_get s.ctxs c (fun x => { x with next := false })

theorem AcquireCtx_new (s : State) (b : Option Ptr) (h : s.ctxPool = []) :
    (AcquireCtx s b).2 = s.ctxs.length ∧ (AcquireCtx s b).1.ctxPool = [] ∧
      (AcquireCtx s b).1.ctxs = s.ctxs ++ [{ Ctx.zero with RequestCtx := b }] := by
  simp only [AcquireCtx, h, and_self]

theorem AcquireCtx_reuse (s : State) (b : Option Ptr) (v : Ptr) (rest : List Ptr)
    (h : s.ctxPool = v :: rest) :
    (AcquireCtx s b).2 = v ∧ (AcquireCtx s b).1.ctxPool = rest ∧
      (AcquireCtx s b).1.ctxs =
        s.ctxs.set v { (s.ctxs.getD v Ctx.zero) with RequestCtx := b } := by
  simp only [AcquireCtx, h, and_self]

theorem init_inv (bufs : List RequestCtx) : (Sys.init bufs).Inv := by
  refine ⟨List.nodup_nil, List.nodup_nil, ?_, ?_, ?_, ?_⟩ <;>
    intro c hc <;> exact absurd hc (List.not_mem_nil _)

theorem step_inv (canon : String → String) (y y1 : Sys) (k : Call) (hi : y.Inv)
    (h : Sys.step canon y k = some y1) : y1.Inv := by
  rcases hi with ⟨hl, hpn, hd, hlv, hpv, hnx⟩
  cases k with
  | acquire b =>
    simp only [Sys.step, Option.some.injEq] at h
    subst h
    cases hpool : y.mem.ctxPool with
    | nil =>
      rcases AcquireCtx_new y.mem b hpool with ⟨h2, hp1, hc1⟩
      have hfresh : y.mem.ctxs.length ∉ y.live := fun hm => Nat.lt_irrefl _ (hlv _ hm)
      refine ⟨?_, ?_, ?_, ?_, ?_, ?_⟩
      · simp only [h2]; exact List.nodup_cons.mpr ⟨hfresh, hl⟩
      · simp only [hp1]; exact List.nodup_nil
      · intro c _; simp only [hp1]; exact List.not_mem_nil _
      · intro c hc
        simp only [h2, hc1, List.length_append, List.length_singleton] at hc ⊢
        rcases List.mem_cons.mp hc with e | e
        · rw [e]; exact Nat.lt_succ_self _
        · exact Nat.lt_succ_of_lt (hlv c e)
      · intro c hc; simp only [hp1] at hc; exact absurd hc (List.not_mem_nil _)
      · intro c hc; simp only [hp1] at hc; exact absurd hc (List.not_mem_nil _)
    | cons v rest =>
      rcases AcquireCtx_reuse y.mem b v rest hpool with ⟨h2, hp1, hc1⟩
      rw [hpool] at hpn hd hpv hnx
      have hvrest : v ∉ rest := (List.nodup_cons.mp hpn).1
      have hvlive : v ∉ y.live := fun hm => hd v hm (List.mem_cons_self _ _)
      refine ⟨?_, ?_, ?_, ?_, ?_, ?_⟩
      · simp only [h2]; exact List.nodup_cons.mpr ⟨hvlive, hl⟩
      · simp only [hp1]; exact (List.nodup_cons.mp hpn).2
      · intro c hc
        simp only [h2, hp1] at hc ⊢
        rcases List.mem_cons.mp hc with e | e
        · rw [e]; exact hvrest
        · exact fun hm => hd c e (List.mem_cons_of_mem _ hm)
      · intro c hc
        simp only [h2, hc1, List.length_set] at hc ⊢
        rcases List.mem_cons.mp hc with e | e
        · rw [e]; exact hpv v (List.mem_cons_self _ _)
        · exact hlv c e
      · intro c hc
        simp only [hp1, hc1, List.length_set] at hc ⊢
        exact hpv c (List.mem_cons_of_mem _ hc)
      · intro c hc
        simp only [hp1, hc1] at hc ⊢
        have hne : v ≠ c := fun e => hvrest (e ▸ hc)
        rw [getD_set_ne _ _ _ _ _ hne]
        exact hnx c (List.mem_cons_of_mem _ hc)
  | use c o =>
    simp only [Sys.step] at h
    split at h
    · rename_i hc
      cases ha : Ctx.apply canon y.mem c o with
      | none => rw [ha] at h; exact absurd h (by simp)
      | some m =>
        rw [ha] at h
        simp only [Option.map_some', Option.some.injEq] at h
        subst h
        rcases apply_frame canon y.mem m c o ha with ⟨hp1, hlen, hoth⟩
        refine ⟨hl, ?_, ?_, ?_, ?_, ?_⟩
        · simp only [hp1]; exact hpn
        · simp only [hp1]; exact hd
        · simp only [hlen]; exact hlv
        · simp only [hp1, hlen]; exact hpv
        · intro a ha1
          simp only [hp1] at ha1 ⊢
          have hne : a ≠ c := fun e => hd c hc (e ▸ ha1)
          rw [getD_congr _ _ _ _ (hoth a hne)]
          exact hnx a ha1
    · exact absurd h (by simp)
  | release c =>
    simp only [Sys.step] at h
    split at h
    · rename_i hc
      simp only [Option.some.injEq] at h
      subst h
      rcases ReleaseCtx_frame y.mem c with ⟨hp1, hlen, hoth, hself⟩
      have hcp : c ∉ y.mem.ctxPool := hd c hc
      refine ⟨hl.erase c, ?_, ?_, ?_, ?_, ?_⟩
      · simp only [hp1]; exact List.nodup_cons.mpr ⟨hcp, hpn⟩
      · intro a ha1
        simp only [hp1] at ha1 ⊢
        rcases (List.Nodup.mem_erase_iff hl).mp ha1 with ⟨hne, hmem⟩
        intro hm
        rcases List.mem_cons.mp hm with e | e
        · exact hne e
        · exact hd a hmem e
      · intro a ha1
        simp only [hlen] at ha1 ⊢
        exact hlv a (List.mem_of_mem_erase ha1)
      · intro a ha1
        simp only [hp1, hlen] at ha1 ⊢
        rcases List.mem_cons.mp ha1 with e | e
        · rw [e]; exact hlv c hc
        · exact hpv a e
      · intro a ha1
        simp only [hp1] at ha1 ⊢
        rcases List.mem_cons.mp ha1 with e | e
        · subst e
          rw [List.getD_eq_getElem?_getD, hself,
            List.getElem?_eq_getElem (hlv a hc)]
          rfl
        · have hne : a ≠ c := fun e1 => hcp (e1 ▸ e)
          rw [getD_congr _ _ _ _ (hoth a hne)]
          exact hnx a e
    · exact absurd h (by simp)

theorem step_count (canon : String → String) (y y1 : Sys) (k : Call)
    (h : Sys.step canon y k = some y1) :
    y1.live.length + releases [k] = y.live.length + acquires [k] := by
  cases k with
  | acquire b =>
    simp only [Sys.step, Option.some.injEq] at h
    subst h
    simp [releases, acquires]
  | use c o =>
    simp only [Sys.step] at h
    split at h
    · cases ha : Ctx.apply canon y.mem c o with
      | none => rw [ha] at h; exact absurd h (by simp)
      | some m =>
        rw [ha] at h
        simp only [Option.map_some', Option.some.injEq] at h
        subst h
        simp [releases, acquires]
    · exact absurd h (by simp)
  | release c =>
    simp only [Sys.step] at h
    split at h
    · rename_i hc
      simp only [Option.some.injEq] at h
      subst h
      have hpos : 0 < y.live.length := List.length_pos_of_mem hc
      simp only [List.length_erase_of_mem hc, releases, acquires, List.countP_cons,
        List.countP_nil]
      simp
      omega
    · exact absurd h (by simp)

theorem run_inv (canon : String → String) (t : List Call) :
    ∀ (y0 y : Sys), y0.Inv → Sys.run canon y0 t = some y →
      y.Inv ∧ y.live.length + releases t = y0.live.length + acquires t := by
  induction t with
  | nil =>
    intro y0 y hi h
    simp only [Sys.run, Option.some.injEq] at h
    subst h
    exact ⟨hi, rfl⟩
  | cons k ks ih =>
    intro y0 y hi h
    simp only [Sys.run] at h
    cases hs : Sys.step canon y0 k with
    | none => rw [hs] at h; exact absurd h (by simp)
    | some y1 =>
      rw [hs] at h
      rcases ih y1 y (step_inv canon y0 y1 k hi hs) h with ⟨hinv, hcnt⟩
      have h1 := step_count canon y0 y1 k hs
      refine ⟨hinv, ?_⟩
      have ha : acquires (k :: ks) = acquires [k] + acquires ks := by
        simp only [acquires, List.countP_cons, List.countP_nil]; omega
      have hr : releases (k :: ks) = releases [k] + releases ks := by
        simp only [releases, List.countP_cons, List.countP_nil]; omega
      omega

theorem applyAll_keeps_next (canon : String → String) (c : Ptr) (ops : List Op) :
    ∀ (s s2 : State) (x : Ctx), s.ctxs[c]? = some x → x.next = true →
      Ctx.applyAll canon s c ops = some s2 →
      ∃ x2, s2.ctxs[c]? = some x2 ∧ x2.next = true := by
  induction ops with
  | nil =>
    intro s s2 x hx hn h
    simp only [Ctx.applyAll, Option.some.injEq] at h
    subst h
    exact ⟨x, hx, hn⟩
  | cons o os ih =>
    intro s s2 x hx hn h
    simp only [Ctx.applyAll] at h
    cases ha : Ctx.apply canon s c o with
    | none => rw [ha] at h; exact absurd h (by simp)
    | some s1 =>
      rw [ha] at h
      rcases apply_effect canon s s1 c o x ha hx with ⟨x1, hx1, hkeep, _, _, _⟩
      exact ih s1 s2 x1 hx1 (hkeep hn) h

theorem AcquireCtx_next (y : Sys) (hi : y.Inv) (b : Option Ptr) :
    ((AcquireCtx y.mem b).1.ctxs[(AcquireCtx y.mem b).2]?).map Ctx.next = some false := by
  rcases hi with ⟨_, _, _, _, hpv, hnx⟩
  cases hpool : y.mem.ctxPool with
  | nil =>
    rcases AcquireCtx_new y.mem b hpool with ⟨h2, _, hc1⟩
    rw [h2, hc1, List.getElem?_concat_length]
    rfl
  | cons v rest =>
    rcases AcquireCtx_reuse y.mem b v rest hpool with ⟨h2, _, hc1⟩
    have hv : v ∈ y.mem.ctxPool := by rw [hpool]; exact List.mem_cons_self _ _
    rw [h2, hc1, List.getElem?_set_self (hpv v hv)]
    simp only [Option.map_some', Option.some.injEq]
    exact hnx v hv

/-- C5: `Next()` on a context `x` sets the continuation flag and changes no
other field of the context and nothing else in memory; the flag stays true
under any further operations of the request; a context released after `Next()`
and acquired again reads false; and every context `AcquireCtx` returns, new or
reused, after any sequence of calls that uses and releases live contexts only,
reads false. -/
theorem Next_flag (canon : String → String) (s : State) (c : Ptr) (x : Ctx)
    (hx : s.ctxs[c]? = some x) :
    (Ctx.Next s c).ctxs[c]? =
        some { RequestCtx := x.RequestCtx, next := true, pathName := x.pathName,
               stdUrl := x.stdUrl, rw := x.rw, deferFuncs := x.deferFuncs,
               error := x.error } ∧
      (∀ i, i ≠ c → (Ctx.Next s c).ctxs[i]? = s.ctxs[i]?) ∧
      (Ctx.Next s c).bufs = s.bufs ∧ (Ctx.Next s c).urls = s.urls ∧
      (Ctx.Next s c).rws = s.rws ∧ (Ctx.Next s c).ctxPool = s.ctxPool ∧
      (Ctx.Next s c).urlPool = s.urlPool ∧ (Ctx.Next s c).rwPool = s.rwPool ∧
      (Ctx.Next s c).ran = s.ran ∧
      (∀ ops s2, Ctx.applyAll canon (Ctx.Next s c) c ops = some s2 →
        (s2.ctxs[c]?).map Ctx.next = some true) ∧
      (∀ b, (AcquireCtx (ReleaseCtx (Ctx.Next s c) c) b).2 = c ∧
        ((AcquireCtx (ReleaseCtx (Ctx.Next s c) c) b).1.ctxs[c]?).map Ctx.next
          = some false) ∧
      (∀ bufs t y b, Sys.run canon (Sys.init bufs) t = some y →
        ((AcquireCtx y.mem b).1.ctxs[(AcquireCtx y.mem b).2]?).map Ctx.next = some false) := by
  have hlt : c < s.ctxs.length := lt_of_getElem? _ _ _ hx
  have hD : s.ctxs.getD c Ctx.zero = x := getD_of_getElem? _ _ _ _ hx
  have hN : (Ctx.Next s c).ctxs[c]? = some { x with next := true } := by
    simp only [Ctx.Next, hD]
    exact List.getElem?_set_self hlt
  refine ⟨hN, ?_, rfl, rfl, rfl, rfl, rfl, rfl, rfl, ?_, ?_, ?_⟩
  · intro i hi
    exact List.getElem?_set_ne (Ne.symm hi)
  · intro ops s2 hops
    rcases applyAll_keeps_next canon c ops _ s2 _ hN rfl hops with ⟨x2, hx2, hn2⟩
    rw [hx2]
    simp only [Option.map_some', Option.some.injEq]
    exact hn2
  · intro b
    rcases ReleaseCtx_frame (Ctx.Next s c) c with ⟨hp1, hlen, _, hself⟩
    rcases AcquireCtx_reuse (ReleaseCtx (Ctx.Next s c) c) b c _ hp1 with ⟨h2, _, hc1⟩
    refine ⟨h2, ?_⟩
    have hltR : c < (ReleaseCtx (Ctx.Next s c) c).ctxs.length := by
      rw [hlen]; simp only [Ctx.Next, List.length_set]; exact hlt
    rw [hc1, List.getElem?_set_self hltR]
    rw [hN] at hself
    rw [getD_of_getElem? _ _ _ _ hself]
    rfl
  · intro bufs t y b hrun
    exact AcquireCtx_next y (run_inv canon t _ y (init_inv bufs) hrun).1 b

/-- The context of `mem1` after `Next()` reads true, and after release and a
new acquire reads false. -/
theorem Next_flag_witness :
    mem1.ctxs[0]? = some { Ctx.zero with RequestCtx := some 0 } ∧
      ((Ctx.Next mem1 0).ctxs[0]?).map Ctx.next = some true ∧
      ((AcquireCtx (ReleaseCtx (Ctx.Next mem1 0) 0) (some 1)).1.ctxs[0]?).map Ctx.next
        = some false ∧
      ((AcquireCtx ((Sys.run id (Sys.init [bufB1, bufB2]) twoRequests).getD
          (Sys.init [])).mem none).1.ctxs[1]?).map Ctx.next = some false := by
  have h := Next_flag id mem1 0 { Ctx.zero with RequestCtx := some 0 } (by decide)
  refine ⟨by decide, ?_, (h.2.2.2.2.2.2.2.2.2.2.1 (some 1)).2, ?_⟩
  · rw [h.1]; rfl
  · exact h.2.2.2.2.2.2.2.2.2.2.2 [bufB1, bufB2] twoRequests
      ((Sys.run id (Sys.init [bufB1, bufB2]) twoRequests).getD (Sys.init [])) none
      (by decide)

/-- C6: after any sequence of calls from the empty system in which a context
is used and released only while live, no context is both live and in the
pool, no context is live twice or pooled twice, and the number of live
contexts is the number of `AcquireCtx` calls minus the number of `ReleaseCtx`
calls. -/
theorem pool_discipline (canon : String → String) (bufs : List RequestCtx) (t : List Call)
    (y : Sys) (h : Sys.run canon (Sys.init bufs) t = some y) :
    (∀ c, ¬ (c ∈ y.live ∧ c ∈ y.mem.ctxPool)) ∧ y.live.Nodup ∧ y.mem.ctxPool.Nodup ∧
      releases t ≤ acquires t ∧ y.live.length = acquires t - releases t := by
  rcases run_inv canon t _ y (init_inv bufs) h with ⟨⟨hl, hpn, hd, _, _, _⟩, hcnt⟩
  have h0 : (Sys.init bufs).live.length = 0 := rfl
  refine ⟨fun c hc => hd c hc.1 hc.2, hl, hpn, ?_, ?_⟩
  · omega
  · omega

/-- Four acquires and two releases leave the two distinct live contexts 2 and
0 and the pooled context 1. -/
theorem pool_discipline_witness :
    (Sys.run id (Sys.init [bufB1, bufB2]) sixCalls).map (fun y => (y.live, y.mem.ctxPool))
        = some ([2, 0], [1]) ∧
      ((Sys.run id (Sys.init [bufB1, bufB2]) sixCalls).getD (Sys.init [])).live.length
        = acquires sixCalls - releases sixCalls ∧
      acquires sixCalls = 4 ∧ releases sixCalls = 2 :=
  ⟨by decide,
   (pool_discipline id [bufB1, bufB2] sixCalls
      ((Sys.run id (Sys.init [bufB1, bufB2]) sixCalls).getD (Sys.init []))
      (by decide)).2.2.2.2,
   by decide, by decide⟩

/-! ## Witnesses on concrete memories -/

/-- After acquiring for B1, releasing that URL and releasing nil, the next
`AcquireURL` for B2 reuses URL 0 with the fields of B2, and URL 0 is off the
pool. -/
theorem AcquireURL_populates_witness :
    runURL (State.init []) [.acquire bufB1.uri, .release (some 0), .release none] =
        some (ReleaseURL (AcquireURL (State.init []) bufB1.uri).1 (some 0)) ∧
      runURLHeld (State.init []) [] [.acquire bufB1.uri, .release (some 0), .release none] =
        some (ReleaseURL (AcquireURL (State.init []) bufB1.uri).1 (some 0), []) ∧
      (ReleaseURL (AcquireURL (State.init []) bufB1.uri).1 (some 0)).urlPool = [0] ∧
      (AcquireURL (ReleaseURL (AcquireURL (State.init []) bufB1.uri).1 (some 0))
          bufB2.uri).1.urls[0]? =
        some { Scheme := "http", Opaque := "", User := none, Host := "h", Path := "/b",
               RawPath := "", OmitHost := false, ForceQuery := false, RawQuery := "y=2",
               Fragment := "", RawFragment := "" } ∧
      (AcquireURL (ReleaseURL (AcquireURL (State.init []) bufB1.uri).1 (some 0))
          bufB2.uri).2 ∉
        (AcquireURL (ReleaseURL (AcquireURL (State.init []) bufB1.uri).1 (some 0))
          bufB2.uri).1.urlPool :=
  ⟨by decide, by decide, by decide,
   (AcquireURL_populates (State.init [])
      (ReleaseURL (AcquireURL (State.init []) bufB1.uri).1 (some 0))
      [.acquire bufB1.uri, .release (some 0), .release none] bufB2.uri rfl (by decide)).1,
   ((AcquireURL_populates (State.init [])
      (ReleaseURL (AcquireURL (State.init []) bufB1.uri).1 (some 0))
      [.acquire bufB1.uri, .release (some 0), .release none] bufB2.uri rfl
      (by decide)).2.2.2 [] (by decide)).1⟩

/-- The first `URL()` on the context of `mem1` yields URL 0 and `mem2`, and the
second yields URL 0 again and leaves `mem2` as it is. -/
theorem URL_memoized_witness :
    mem1.ctxs[0]? = some { Ctx.zero with RequestCtx := some 0 } ∧
      mem1.bufs[0]? = some bufB1 ∧ Ctx.URL mem1 0 = some (mem2, 0) ∧
      ∃ s1 u, Ctx.URL mem1 0 = some (s1, u) ∧ Ctx.URL s1 0 = some (s1, u) ∧
        s1.urlAcquires = mem1.urlAcquires + 1 := by
  refine ⟨by decide, by decide, by decide, ?_⟩
  rcases URL_memoized id mem1 0 0 { Ctx.zero with RequestCtx := some 0 } bufB1
    (by decide) rfl (by decide) with ⟨s1, u, h1, h2, _, _, h5, _⟩
  exact ⟨s1, u, h1, h2, h5 rfl⟩

/-- On a buffer visited as `Server: a`, `X-Id: 1`, `Server: b` the adapter's map
holds `Server` once, with the last value, and `X-Id`; after the buffer's
headers are replaced, `ResponseWriter()` returns the same adapter. -/
theorem ResponseWriter_lastValues_witness :
    memHdr.ctxs[0]? = some { Ctx.zero with RequestCtx := some 0 } ∧
      memHdr.bufs[0]? = some bufHdr ∧
      ∃ s1 r hdr, Ctx.ResponseWriter id memHdr 0 = some (s1, r) ∧
        s1.rws[r]? = some { ctx := some 0, hdr := some hdr } ∧
        Header.entry hdr "Server" = some ["b"] ∧ Header.entry hdr "X-Id" = some ["1"] ∧
        Header.entry hdr "Date" = none ∧
        ∃ s2, Ctx.applyAll id s1 0 [.setRespHeader [("Date", "now")], .next] = some s2 ∧
          Ctx.ResponseWriter id s2 0 = some (s2, r) := by
  refine ⟨by decide, by decide, ?_⟩
  rcases ResponseWriter_lastValues id memHdr 0 0 { Ctx.zero with RequestCtx := some 0 } bufHdr
    (by decide) rfl rfl (by decide) (by decide) with ⟨s1, r, hdr, h1, h2, h3, _, _, _, h7⟩
  refine ⟨s1, r, hdr, h1, h2, ?_, ?_, ?_, h7 _⟩
  · rw [h3]; decide
  · rw [h3]; decide
  · rw [h3]; decide

/-! ## Release leaves the context as the request left it -/

/-- C1 (as the code behaves): for every pair of buffers B1 and B2, the URL that
`URL()` returns on the context reacquired for B2, after a first request on B1
that called `URL()` and was released, has every field empty: the context kept
its pointer to the URL it had released, so `URL()` does not consult B2. With
B1 = `/a`, `x=1` and B2 = `/b`, `y=2` the path is not `/b` and the query is
not `y=2`. -/
theorem URL_after_reuse_is_stale :
    (∀ b1 b2 : RequestCtx, reacquiredURL b1 b2 = some URL.zero) ∧
      (reacquiredURL bufB1 bufB2).map URL.Path = some "" ∧
      (reacquiredURL bufB1 bufB2).map URL.Path ≠ some "/b" ∧
      (reacquiredURL bufB1 bufB2).map URL.RawQuery ≠ some "y=2" ∧
      (Sys.run id (Sys.init [bufB1, bufB2]) scenario).map
          (fun y => (y.live, y.mem.urlPool, (y.mem.ctxs.getD 0 Ctx.zero).stdUrl))
        = some ([0], [0], some 0) := by
  refine ⟨fun b1 b2 => rfl, by decide, by decide, by decide, by decide⟩

/-- C2 (as the code behaves): `ReleaseCtx` changes one field of the context,
`next`; on the context of `mem3`, whose request set the path, deferred an
action, took the URL and the adapter and set the error flag, every one of
`pathName`, `stdUrl`, `rw`, `deferFuncs`, `error` keeps its non-zero value
after `ReleaseCtx`. -/
theorem ReleaseCtx_keeps_fields :
    (∀ (s : State) (c : Ptr),
        (ReleaseCtx s c).ctxs[c]? = (s.ctxs[c]?).map (fun x => { x with next := false })) ∧
      Ctx.applyAll id mem1 0 busyOps = some mem3 ∧
      (ReleaseCtx mem3 0).ctxs[0]? =
        some { RequestCtx := some 0, next := false, pathName := "/users/:id",
               stdUrl := some 0, rw := some 0, deferFuncs := [7], error := true } ∧
      (ReleaseCtx mem3 0).ctxs[0]? ≠
        some { RequestCtx := some 0, next := false, pathName := "", stdUrl := none,
               rw := none, deferFuncs := [], error := false } ∧
      (ReleaseCtx mem3 0).ctxPool = [0] := by
  refine ⟨fun s c => (ReleaseCtx_frame s c).2.2.2, by decide, by decide, by decide, by decide⟩

theorem foldl_invoke (fs : List Func) :
    ∀ s : State, (fs.foldl invoke s).ran = s.ran ++ fs ∧ (fs.foldl invoke s).ctxs = s.ctxs := by
  induction fs with
  | nil => intro s; exact ⟨(List.append_nil _).symm, rfl⟩
  | cons f rest ih =>
    intro s
    rcases ih (invoke s f) with ⟨h1, h2⟩
    refine ⟨?_, ?_⟩
    · rw [List.foldl_cons, h1]
      simp only [invoke, List.append_assoc, List.singleton_append]
    · rw [List.foldl_cons, h2]
      rfl

theorem ReleaseCtx_ran (s : State) (c : Ptr) : (ReleaseCtx s c).ran = s.ran := by
  have hp := release_parts_ctxs s (s.ctxs.getD c Ctx.zero).stdUrl (s.ctxs.getD c Ctx.zero).rw
  simp only [ReleaseCtx, hp.2.2.1]

/-- C3 (the claim fails): `ReleaseCtx` does not run the deferred actions of the
context. On the context of `mem3`, whose deferred-action list is `[7]`, a
release path that runs the deferred actions invokes the closure 7; after
`ReleaseCtx` no closure has been invoked. -/
theorem ReleaseCtx_runs_deferred_fails :
    (mem3.ctxs.getD 0 Ctx.zero).deferFuncs = [7] ∧ mem3.ran = [] ∧
      (releaseSpec mem3 0).ran = [7] ∧ (ReleaseCtx mem3 0).ran = [] ∧
      ReleaseCtx mem3 0 ≠ releaseSpec mem3 0 := by
  refine ⟨by decide, by decide, by decide, by decide, by decide⟩

/-- C3 (amended): `ReleaseCtx` on a context `x` runs none of the deferred
actions of `x`: it invokes no closure, what it does to memory is the same
whatever the deferred-action list holds, and with a non-empty list its result
differs from that of a release path that runs the actions. It resets the owned
URL to the zero value and puts it on the URL pool, puts the owned adapter on
its pool, clears `next` and puts the context on the context pool. -/
theorem ReleaseCtx_runs_nothing (s : State) (c : Ptr) (x : Ctx) (hx : s.ctxs[c]? = some x) :
    (ReleaseCtx s c).ran = s.ran ∧
      (∀ fs, ReleaseCtx (Ctx.setDeferFuncs s c fs) c =
        Ctx.setDeferFuncs (ReleaseCtx s c) c fs) ∧
      (x.deferFuncs ≠ [] → ReleaseCtx s c ≠ releaseSpec s c) ∧
      (∀ u, x.stdUrl = some u → u < s.urls.length →
        (ReleaseCtx s c).urls[u]? = some URL.zero ∧
        (ReleaseCtx s c).urlPool = u :: s.urlPool) ∧
      (x.stdUrl = none → (ReleaseCtx s c).urls = s.urls ∧
        (ReleaseCtx s c).urlPool = s.urlPool) ∧
      (∀ r, x.rw = some r → (ReleaseCtx s c).rwPool = r :: s.rwPool) ∧
      (x.rw = none → (ReleaseCtx s c).rws = s.rws ∧ (ReleaseCtx s c).rwPool = s.rwPool) ∧
      ((ReleaseCtx s c).ctxs[c]?).map Ctx.next = some false ∧
      (ReleaseCtx s c).ctxPool = c :: s.ctxPool := by
  have hlt : c < s.ctxs.length := lt_of_getElem? _ _ _ hx
  have hD : s.ctxs.getD c Ctx.zero = x := getD_of_getElem? _ _ _ _ hx
  rcases ReleaseCtx_frame s c with ⟨hp1, _, _, hself⟩
  have hp := release_parts_ctxs s x.stdUrl x.rw
  refine ⟨ReleaseCtx_ran s c, ?_, ?_, ?_, ?_, ?_, ?_, ?_, hp1⟩
  · intro fs
    have hS : Ctx.setDeferFuncs s c fs =
        { s with ctxs := s.ctxs.set c { x with deferFuncs := fs } } := by
      simp only [Ctx.setDeferFuncs, hD]
    have hD1 : (s.ctxs.set c { x with deferFuncs := fs }).getD c Ctx.zero =
        { x with deferFuncs := fs } := getD_set_self _ _ _ _ hlt
    rw [hS]
    cases hu : x.stdUrl <;> cases hr : x.rw <;>
      simp only [ReleaseCtx, Ctx.setDeferFuncs, ReleaseURL, relRespWriter, hD, hD1, hu, hr,
        getD_set_self _ _ _ _ hlt, List.set_set]
  · intro hne heq
    have h1 : (ReleaseCtx s c).ran = s.ran := ReleaseCtx_ran s c
    have h2 : (releaseSpec s c).ran = s.ran ++ x.deferFuncs := by
      simp only [releaseSpec, hD]
      rw [ReleaseCtx_ran, (foldl_invoke x.deferFuncs s).1]
    rw [heq, h2] at h1
    have hlen := congrArg List.length h1
    rw [List.length_append] at hlen
    have : x.deferFuncs.length = 0 := by omega
    exact hne (List.length_eq_zero.mp this)
  · intro u hu hlt
    simp only [ReleaseCtx, hD, hu]
    cases x.rw with
    | none => exact ⟨List.getElem?_set_self hlt, rfl⟩
    | some r => exact ⟨List.getElem?_set_self hlt, rfl⟩
  · intro hu
    simp only [ReleaseCtx, hD, hu]
    cases x.rw with
    | none => exact ⟨rfl, rfl⟩
    | some r => exact ⟨rfl, rfl⟩
  · intro r hr
    simp only [ReleaseCtx, hD, hr]
    cases x.stdUrl with
    | none => rfl
    | some u => rfl
  · intro hr
    simp only [ReleaseCtx, hD, hr]
    cases x.stdUrl with
    | none => exact ⟨rfl, rfl⟩
    | some u => exact ⟨rfl, rfl⟩
  · rw [hself, hx]; rfl

/-- Releasing the context of `mem3`, whose list is `[7]`, runs nothing, gives
the same memory as with the list `[8, 9]` up to that list, zeroes and pools
its URL and pools its adapter. -/
theorem ReleaseCtx_runs_nothing_witness :
    ((mem3.ctxs[0]?).map Ctx.deferFuncs = some [7]) ∧
      (ReleaseCtx mem3 0).ran = [] ∧
      ReleaseCtx (Ctx.setDeferFuncs mem3 0 [8, 9]) 0 =
        Ctx.setDeferFuncs (ReleaseCtx mem3 0) 0 [8, 9] ∧
      ReleaseCtx mem3 0 ≠ releaseSpec mem3 0 ∧
      (ReleaseCtx mem3 0).urls[0]? = some URL.zero ∧
      (ReleaseCtx mem3 0).urlPool = [0] ∧ (ReleaseCtx mem3 0).rwPool = [0] := by
  have h := ReleaseCtx_runs_nothing mem3 0
    { RequestCtx := some 0, next := true, pathName := "/users/:id", stdUrl := some 0,
      rw := some 0, deferFuncs := [7], error := true } (by decide)
  exact ⟨by decide, h.1, h.2.1 [8, 9], h.2.2.1 (by decide),
    (h.2.2.2.1 0 rfl (by decide)).1, (h.2.2.2.1 0 rfl (by decide)).2,
    h.2.2.2.2.2.1 0 rfl⟩

end Lloyd
